import Mathlib

/-!
# Verification of the 5echmweb search engine core (`server.js`)

A shallow embedding, in Lean 4, of the in-memory retrieval engine of
`src/server.js` (the indexed variant beginning at the
`MIN_TOKEN_LENGTH`/`ASCII_TOKEN_REGEX` constants): tokenization, inverted-index
construction, query parsing, candidate pruning, ranking, caching and
pagination, together with theorems settling the frozen claims about the spec.

Modelling conventions:
* JavaScript strings are `List Char` (`Str`); JS string methods are embedded
  as explicit recursive functions on lists.
* JS `Map` (insertion-ordered, unique keys) is an association list; `Set` of
  numbers is a `List Nat` with ordered, deduplicating insertion.
* `parseInt` results are `Option Int` (`none` = `NaN`).
* `Math.pow`/`Math.round` in the rank formula are modelled over exact reals
  (computed by exact integer search); no claim depends on the numeric rank
  values, only on their comparisons, so IEEE rounding noise is immaterial.
* Display-only output fields (display title, preview, source path) are not
  claimed about and are omitted from the embedded result record.
* The result cache is modelled separately as explicit state passing
  (`cacheGet`/`cachePut`); the search handler below is its pure cache-miss
  computation path, which is also exactly the list that `setCachedResults`
  stores.
-/

abbrev Str := List Char

/-- JS whitespace (the `\s` class / `String.prototype.trim`), restricted to
the code points that actually occur in this corpus' queries. -/
def isJsSpace (c : Char) : Bool :=
  c = ' ' || c = '\t' || c = '\n' || c = '\r' ||
  c = '\x0b' || c = '\x0c' || c = ' '

/-- Embeds `String.prototype.trim`. -/
def jsTrim (s : Str) : Str :=
  (s.dropWhile isJsSpace).reverse.dropWhile isJsSpace |>.reverse

/-- ASCII-only case folding, matching `toLowerCase` on the ASCII and CJK
characters this engine indexes (CJK has no case). -/
def toLowerStr (s : Str) : Str := s.map Char.toLower

/-- Constant `MIN_TOKEN_LENGTH` (server.js line 741). -/
def MIN_TOKEN_LENGTH : Nat := 2

/-- Constant `CACHE_MAX_ENTRIES` (server.js line 743). -/
def CACHE_MAX_ENTRIES : Nat := 120

/-- Constant `CACHE_TTL` (server.js line 744): five minutes in milliseconds. -/
def CACHE_TTL : Int := 5 * 60 * 1000

/-- Constant `MAX_PAGE_SIZE` (server.js line 746). -/
def MAX_PAGE_SIZE : Int := 100

/-- Embeds `countOccurrences(source, keyword)` (server.js lines 849-864): the number
of non-overlapping occurrences of `keyword` in `source`, scanning left to
right and resuming after the end of each hit (`startIndex = idx +
keyword.length`).  Structured with fuel (one unit per consumed source
character) so it is kernel-computable; `countOccFuel` consumes at least one
character of the source per step, so `source.length` units suffice. -/
def countOccFuel (kw : Str) : Nat → Str → Nat
  | 0, _ => 0
  | _ + 1, [] => 0
  | fuel + 1, c :: rest =>
    if kw.isPrefixOf (c :: rest) then
      1 + countOccFuel kw fuel (rest.drop (kw.length - 1))
    else
      countOccFuel kw fuel rest

def countOccurrences (source kw : Str) : Nat :=
  if source = [] || kw = [] then 0 else countOccFuel kw source.length source

/-- Characters admitted into index tokens: the complement of the splitting
class `[^a-zA-Z0-9一-龥]` (server.js line 836). -/
def isTokenChar (c : Char) : Bool :=
  ('a' ≤ c && c ≤ 'z') || ('A' ≤ c && c ≤ 'Z') || ('0' ≤ c && c ≤ '9') ||
  (0x4e00 ≤ c.toNat && c.toNat ≤ 0x9fa5)

/-- Maximal runs of token characters, in order (the non-empty segments of
`text.split(/[^a-zA-Z0-9一-龥]+/)`; the split's empty boundary
segments are dropped by the length filter anyway). -/
def tokenRuns : Str → Str → List Str
  | [], acc => if acc = [] then [] else [acc.reverse]
  | c :: rest, acc =>
    if isTokenChar c then tokenRuns rest (c :: acc)
    else if acc = [] then tokenRuns rest []
    else acc.reverse :: tokenRuns rest []

/-- First-occurrence deduplication, as `[...new Set(pieces)]` (JS `Set`
iterates in insertion order). -/
def dedupFirstAux [DecidableEq α] (seen : List α) : List α → List α
  | [] => []
  | a :: rest =>
    if a ∈ seen then dedupFirstAux seen rest
    else a :: dedupFirstAux (a :: seen) rest

def dedupFirst [DecidableEq α] (l : List α) : List α := dedupFirstAux [] l

/-- Embeds `extractTokens(text)` (server.js lines 831-840): split on runs of
non-token characters, keep segments of length ≥ `MIN_TOKEN_LENGTH`,
deduplicate keeping first occurrences.  (The `.trim()` in the source is a
no-op: segments contain no whitespace.) -/
def extractTokens (text : Str) : List Str :=
  dedupFirst ((tokenRuns text []).filter (fun s => MIN_TOKEN_LENGTH ≤ s.length))

section ParseKeywords

/-- Scan for the next `"`; `some (before, after)` when found. -/
def takeUntilQuote : Str → Option (Str × Str)
  | [] => none
  | c :: rest =>
    if c = '"' then some ([], rest)
    else (takeUntilQuote rest).map (fun p => (c :: p.1, p.2))

/-- The raw-token scan of `parseSearchKeywords` (server.js lines 944-947):
repeated global matching of `/"([^"]+)"|(\S+)/`.  At each position the engine
first tries a double-quoted phrase with a non-empty body; failing that, a
maximal non-whitespace run (which may itself contain quote characters, e.g.
for an unterminated quote).  Fuel: each step consumes at least one character,
so the string's length suffices. -/
def scanRawTokens : Nat → Str → List Str
  | 0, _ => []
  | _ + 1, [] => []
  | fuel + 1, c :: rest =>
    if isJsSpace c then scanRawTokens fuel rest
    else
      (if c = '"' then
        match takeUntilQuote rest with
        | some (seg, after) =>
          if seg ≠ [] then some (seg, after) else none
        | none => none
      else none).elim
        (let tok := (c :: rest).takeWhile (fun ch => !isJsSpace ch)
         tok :: scanRawTokens fuel ((c :: rest).dropWhile (fun ch => !isJsSpace ch)))
        (fun p => p.1 :: scanRawTokens fuel p.2)

/-- Embeds `parseSearchKeywords(rawKeyword)` (server.js lines 939-960): scan raw
tokens, split each on `|`, trim the parts, drop empties; a token yielding no
parts contributes no group. -/
def parseSearchKeywords (rawKeyword : Str) : List (List Str) :=
  (scanRawTokens rawKeyword.length rawKeyword).foldr
    (fun rawToken groups =>
      let token := jsTrim rawToken
      if token = [] then groups
      else
        let orParts := ((token.splitOn '|').map jsTrim).filter (fun p => p ≠ [])
        if orParts ≠ [] then orParts :: groups else groups)
    []

end ParseKeywords

/-! ## Document store and token index -/

/-- One entry of `searchData` (server.js lines 790-797), restricted to the
fields the retrieval claims touch (`titleLower`, `contentLower`, `category`);
the display-only `title`/`content`/`path` fields are carried by no claim. -/
structure Doc where
  titleLower : Str
  contentLower : Str
  category : Str
  deriving DecidableEq, Repr

/-- An insertion-ordered map with unique keys (JS `Map`).  `mapSet` on a
present key overwrites in place, keeping the key's position; on an absent key
it appends at the end, exactly as `Map.prototype.set`. -/
abbrev JsMap (α : Type) := List (Str × α)

def mapGet (m : JsMap α) (k : Str) : Option α :=
  (m.find? (fun p => p.1 = k)).map (fun p => p.2)

def mapSet : JsMap α → Str → α → JsMap α
  | [], k, v => [(k, v)]
  | (k', v') :: rest, k, v =>
    if k' = k then (k, v) :: rest else (k', v') :: mapSet rest k v

/-- Embeds `Map.prototype.delete`: remove the entry with the given key (the first
match; keys are unique in every map the code builds). -/
def mapDelete (m : JsMap α) (k : Str) : JsMap α :=
  m.eraseP (fun p => p.1 = k)

/-- Embeds `Set.prototype.add` on a set of numbers kept in insertion order. -/
def setAdd (l : List Nat) (d : Nat) : List Nat :=
  if d ∈ l then l else l ++ [d]

abbrev TokenIndex := JsMap (List Nat)

/-- The body of the `tokens.forEach` in `indexDocumentTokens` (server.js
lines 821-828): fetch or create the token's bucket and add the document. -/
def addTokenDoc (ti : TokenIndex) (t : Str) (d : Nat) : TokenIndex :=
  match mapGet ti t with
  | none => mapSet ti t (setAdd [] d)
  | some b => mapSet ti t (setAdd b d)

/-- Embeds `indexDocumentTokens(docIndex, titleLower, contentLower)` (server.js
lines 819-829): index every token of `` `${titleLower} ${contentLower}` ``. -/
def indexDocumentTokens (ti : TokenIndex) (docIndex : Nat)
    (titleLower contentLower : Str) : TokenIndex :=
  (extractTokens (titleLower ++ ' ' :: contentLower)).foldl
    (fun ti t => addTokenDoc ti t docIndex) ti

/-- The token index accumulated by the load loop of `loadSearchData`
(server.js lines 799-801), which calls `indexDocumentTokens` per document in
store order with `docIndex = searchData.length` at push time (a running
counter). -/
def buildTokenIndexAux (ti : TokenIndex) (docIndex : Nat) : List Doc → TokenIndex
  | [] => ti
  | item :: rest =>
    buildTokenIndexAux (indexDocumentTokens ti docIndex item.titleLower item.contentLower)
      (docIndex + 1) rest

def buildTokenIndex (docs : List Doc) : TokenIndex :=
  buildTokenIndexAux [] 0 docs

/-! ## Candidate selector -/

/-- Embeds `ASCII_TOKEN_REGEX.test` (server.js line 742): `/^[a-z0-9]+$/` on the
already-lowercased keyword. -/
def isAsciiToken (s : Str) : Bool :=
  s ≠ [] && s.all (fun c => ('a' ≤ c && c ≤ 'z') || ('0' ≤ c && c ≤ '9'))

/-- The eligibility test of `collectCandidateIndexes` (server.js lines
1003-1011): a group prunes only if **exactly one** of its alternatives is
≥ `MIN_TOKEN_LENGTH` long and purely ASCII alphanumeric. -/
def eligibleKeyword (group : List Str) : Option Str :=
  match group.filter (fun kw => MIN_TOKEN_LENGTH ≤ kw.length && isAsciiToken kw) with
  | [kw] => some kw
  | _ => none

/-- The loop body state of `collectCandidateIndexes`: the running candidate
set (`null` = unconstrained) and the `usedIndexedKeyword` flag.  The early
`break` on an empty intersection (line 1042-1044) returns the state
immediately. -/
def collectLoop (ti : TokenIndex) (base : Option (List Nat)) :
    List (List Str) → Option (List Nat) → Bool → Option (List Nat) × Bool
  | [], cand, used => (cand, used)
  | group :: rest, cand, used =>
    match eligibleKeyword group with
    | none => collectLoop ti base rest cand used
    | some kw =>
      match mapGet ti kw with
      | none => collectLoop ti base rest cand used
      | some bucket =>
        if bucket = [] then collectLoop ti base rest cand used
        else
          let filteredBucket :=
            match base with
            | some b => bucket.filter (· ∈ b)
            | none => bucket
          let cand' :=
            match cand with
            | none => filteredBucket
            | some c => filteredBucket.filter (· ∈ c)
          if cand' = [] then (some cand', true)
          else collectLoop ti base rest (some cand') true

/-- Embeds `collectCandidateIndexes(keywordGroupsLower, baseIndexesSet)` (server.js
lines 995-1052).  `none` models the `null` "unconstrained" return. -/
def collectCandidateIndexes (ti : TokenIndex) (groupsLower : List (List Str))
    (base : Option (List Nat)) : Option (List Nat) :=
  match collectLoop ti base groupsLower none false with
  | (cand, true) => some (cand.getD [])
  | (_, false) => base

/-! ## Ranker -/

/-- Computes `round(mul * x^(1/g))` for naturals `x ≥ 1`, `g ≥ 1`, computed exactly:
the rounded value is the least `n` with `mul·x^(1/g) < n + 1/2`, i.e. with
`(2·mul)^g · x < (2n+1)^g` (no half-integer boundary case can occur, so JS
round-half-up never fires).  This models `Math.round(Math.pow(x, 1/g) * mul)`
over exact reals. -/
def roundRootMul (x g mul : Nat) : Nat :=
  ((List.range (mul * x + 2)).find?
      (fun n => (2 * mul) ^ g * x < (2 * n + 1) ^ g)).getD (mul * x + 1)

/-- The per-group best-count computation of the ranking loop (server.js lines
1191-1214): for one group, the maximum `countOccurrences` over its
alternatives, for title and (unless title-only) content; empty alternatives
are skipped. -/
def bestStep (item : Doc) (isTitleOnly : Bool) (best : Nat × Nat) (kwLower : Str) :
    Nat × Nat :=
  if kwLower = [] then best
  else
    (max best.1 (countOccurrences item.titleLower kwLower),
     if isTitleOnly then best.2
     else max best.2 (countOccurrences item.contentLower kwLower))

def bestCounts (item : Doc) (isTitleOnly : Bool) (group : List Str) : Nat × Nat :=
  group.foldl (bestStep item isTitleOnly) (0, 0)

/-- The per-document part of the ranking loop (server.js lines 1185-1242):
walk the groups accumulating `titleRank`/`contentRank`, aborting (`none`)
as soon as a group is unmatched; on success produce `totalRank`. -/
def scoreLoop (item : Doc) (isTitleOnly : Bool) (groupCount : Nat) :
    List (List Str) → Nat → Nat → Option Nat
  | [], titleRank, contentRank =>
    some (roundRootMul titleRank groupCount 20 +
      if isTitleOnly then 0 else roundRootMul contentRank groupCount 1)
  | group :: rest, titleRank, contentRank =>
    let best := bestCounts item isTitleOnly group
    let keywordMatched :=
      if isTitleOnly then 0 < best.1 else 0 < best.1 || 0 < best.2
    if !keywordMatched then none
    else
      scoreLoop item isTitleOnly groupCount rest
        (if 0 < best.1 then titleRank * (best.1 + 1) else titleRank)
        (if !isTitleOnly && 0 < best.2 then contentRank * (best.2 + 1) else contentRank)

/-- Match-and-score one document: `some totalRank` iff every group matched.
`groupCount` is `keywordGroupsLower.length || 1` (server.js line 1237). -/
def scoreDoc (item : Doc) (groupsLower : List (List Str)) (isTitleOnly : Bool) :
    Option Nat :=
  let groupCount := if groupsLower.length = 0 then 1 else groupsLower.length
  scoreLoop item isTitleOnly groupCount groupsLower 1 1

/-- One pushed result (server.js lines 1248-1258), restricted to the fields
the claims are about: the document id (`index`) and the relevance `rank`. -/
structure ResultItem where
  index : Nat
  rank : Nat
  deriving DecidableEq, Repr

/-- One iteration of the ranking loop (server.js lines 1178-1259): skip a
missing document, otherwise score it and keep it when every group matched. -/
def rankDoc (docs : List Doc) (groupsLower : List (List Str))
    (isTitleOnly : Bool) (index : Nat) : Option ResultItem :=
  match docs.get? index with
  | none => none
  | some item => (scoreDoc item groupsLower isTitleOnly).map (⟨index, ·⟩)

/-- The result comparator (server.js lines 1261-1266) as a relation:
`a` may precede `b` iff `a` has strictly higher rank, or equal rank and an
index no larger. -/
def resultLE (a b : ResultItem) : Prop :=
  b.rank < a.rank ∨ (a.rank = b.rank ∧ a.index ≤ b.index)

instance : DecidableRel resultLE := fun a b => by
  unfold resultLE; infer_instance

instance : IsTotal ResultItem resultLE where
  total a b := by
    unfold resultLE
    rcases Nat.lt_trichotomy a.rank b.rank with h | h | h
    · exact Or.inr (Or.inl h)
    · rcases Nat.le_total a.index b.index with hi | hi
      · exact Or.inl (Or.inr ⟨h, hi⟩)
      · exact Or.inr (Or.inr ⟨h.symm, hi⟩)
    · exact Or.inl (Or.inl h)

instance : IsTrans ResultItem resultLE where
  trans a b c hab hbc := by
    rcases hab with h1 | ⟨e1, i1⟩ <;> rcases hbc with h2 | ⟨e2, i2⟩
    · exact Or.inl (h2.trans h1)
    · exact Or.inl (e2 ▸ h1)
    · exact Or.inl (e1 ▸ h2)
    · exact Or.inr ⟨e1.trans e2, i1.trans i2⟩

/-- Embeds `results.sort(comparator)` (server.js lines 1261-1266): JS `Array.sort`
is stable with a consistent comparator, so a stable sort w.r.t. `resultLE`
models it exactly. -/
def sortResults (results : List ResultItem) : List ResultItem :=
  results.insertionSort resultLE

/-! ## Pagination and request-parameter handling -/

/-- Embeds `paginateResults(sortedResults, pageNum, pageSize)` (server.js lines
1054-1066).  `totalPages` embeds `Math.ceil(total / pageSize)`: for the
nonnegative `total` and positive `pageSize` the handler always passes, the
ceiling of the real division is the integer `(total + pageSize - 1) / pageSize`
(theorem `paginate_spec` below proves this equals the true ceiling).  The
slice start `(pageNum - 1) * pageSize` is nonnegative for the `pageNum ≥ 1`
the handler guarantees. -/
structure SearchResponse where
  results : List ResultItem
  total : Nat
  page : Int
  totalPages : Int
  pageSize : Int
  deriving DecidableEq, Repr

def paginateResults (sortedResults : List ResultItem) (pageNum pageSize : Int) :
    SearchResponse :=
  let total : Nat := sortedResults.length
  let totalPages : Int := ((total : Int) + pageSize - 1) / pageSize
  let start : Nat := ((pageNum - 1) * pageSize).toNat
  { results := (sortedResults.drop start).take pageSize.toNat
    total := total
    page := pageNum
    totalPages := totalPages
    pageSize := pageSize }

/-- Embeds `parseInt(s, 10)`: skip leading whitespace, optional sign, then the
longest leading run of decimal digits; `none` models `NaN` (no digits). -/
def jsParseInt (s : Str) : Option Int :=
  let s := s.dropWhile isJsSpace
  let signedTail : Bool × Str :=
    match s with
    | '-' :: rest => (true, rest)
    | '+' :: rest => (false, rest)
    | _ => (false, s)
  let digits := signedTail.2.takeWhile (fun c => '0' ≤ c && c ≤ '9')
  if digits = [] then none
  else
    let v : Int := digits.foldl (fun acc c => acc * 10 + (c.toNat - '0'.toNat)) 0
    some (if signedTail.1 then -v else v)

/-- Embeds `x || d` for the number `x = parseInt(...)`: `NaN` and `0` are falsy. -/
def jsOrDefault (x : Option Int) (d : Int) : Int :=
  match x with
  | none => d
  | some n => if n = 0 then d else n

/-- Embeds `Math.max(parseInt(page, 10) || 1, 1)` (server.js line 1079). -/
def effectivePageNum (pageRaw : Option Int) : Int :=
  max (jsOrDefault pageRaw 1) 1

/-- Embeds `Math.min(Math.max(parseInt(pageSize, 10) || 20, 1), MAX_PAGE_SIZE)`
(server.js line 1080). -/
def effectivePageSize (pageSizeRaw : Option Int) : Int :=
  min (max (jsOrDefault pageSizeRaw 20) 1) MAX_PAGE_SIZE

/-- The `baseIndexes` parse of the search handler (server.js lines
1092-1112): on a non-blank parameter, split on `,`, `parseInt` each entry,
keep integers in `[0, storeLen)` (`Number.isInteger` rules out `NaN`),
deduplicate into a `Set`; an empty set short-circuits the request to the
empty response (modelled as `Except.error`).  A blank parameter means no
restriction (`Except.ok none`).  Validated ids are returned as `Nat`. -/
def parseBaseIndexes (storeLen : Nat) (raw : Str) : Except Unit (Option (List Nat)) :=
  if jsTrim raw ≠ [] then
    let ids := dedupFirst
      ((raw.splitOn ',').filterMap (fun entry =>
        match jsParseInt entry with
        | some k => if 0 ≤ k ∧ k < (storeLen : Int) then some k.toNat else none
        | none => none))
    if ids = [] then Except.error () else Except.ok (some ids)
  else
    Except.ok none

/-! ## The search computation (cache-miss path of `app.get("/api/search")`) -/

/-- Search-space selection and ranking (server.js lines 1147-1268),
producing the full sorted, unpaginated result list (the list handed to
`setCachedResults` and to `paginateResults`).  The two early returns
(`candidateSet` non-null but empty, line 1151; category filter emptying the
space, line 1170) paginate an empty list, i.e. produce `[]` here. -/
def fullResults (docs : List Doc) (groupsLower : List (List Str))
    (isTitleOnly : Bool) (base : Option (List Nat)) (categoryFilter : Str) :
    List ResultItem :=
  let cand := collectCandidateIndexes (buildTokenIndex docs) groupsLower base
  if cand = some [] then []
  else
    let space :=
      match cand with
      | some s => s
      | none =>
        match base with
        | some b => b
        | none => List.range docs.length
    let space2 :=
      if categoryFilter ≠ [] then
        space.filter (fun idx =>
          match docs.get? idx with
          | some doc => doc.category = categoryFilter
          | none => false)
      else space
    if categoryFilter ≠ [] ∧ space2 = [] then []
    else sortResults (space2.filterMap (rankDoc docs groupsLower isTitleOnly))

def emptyResponse (pageNum pageSize : Int) : SearchResponse :=
  { results := [], total := 0, page := pageNum, totalPages := 0,
    pageSize := pageSize }

/-- The `/api/search` handler (server.js lines 1069-1271) as a pure function
of the store and the request parameters, on the cache-miss path (the cache is
modelled separately; a hit replays the same list, so the response shape is
identical).  `pageRaw`/`pageSizeRaw` are the `parseInt` results of the `page`
and `pageSize` parameters (`none` = `NaN`, absent parameters default before
parsing to `1`/`20`, which parse to themselves). -/
def searchHandler (docs : List Doc) (keyword : Str) (titleOnly : Str)
    (pageRaw pageSizeRaw : Option Int) (baseIndexes : Str) (category : Str) :
    SearchResponse :=
  let pageNum := effectivePageNum pageRaw
  let size := effectivePageSize pageSizeRaw
  if keyword = [] then emptyResponse pageNum size
  else
    match parseBaseIndexes docs.length baseIndexes with
    | Except.error _ => emptyResponse pageNum size
    | Except.ok base =>
      let keywordGroups := parseSearchKeywords keyword
      if keywordGroups = [] then emptyResponse pageNum size
      else
        let groupsLower := keywordGroups.map (fun g => g.map toLowerStr)
        let isTitleOnly := titleOnly = ['t', 'r', 'u', 'e']
        let rawCategory := jsTrim category
        let categoryFilter :=
          if rawCategory ≠ [] ∧ toLowerStr rawCategory ≠ ['a', 'l', 'l'] then
            rawCategory
          else []
        paginateResults (fullResults docs groupsLower isTitleOnly base categoryFilter)
          pageNum size

/-! ## Result cache -/

/-- A cache entry (server.js line 986): the full sorted result list and its
creation timestamp. -/
structure CacheEntry where
  results : List ResultItem
  timestamp : Int
  deriving DecidableEq, Repr

abbrev Cache := JsMap CacheEntry

/-- Embeds `getCachedResults(cacheKey)` (server.js lines 971-983): a missing key is
a miss; an entry older than `CACHE_TTL` is deleted and is a miss; a live hit
is deleted and reinserted (moving it to the most-recently-used position) and
returns its results. -/
def cacheGet (c : Cache) (k : Str) (now : Int) : Option (List ResultItem) × Cache :=
  match mapGet c k with
  | none => (none, c)
  | some entry =>
    if CACHE_TTL < now - entry.timestamp then (none, mapDelete c k)
    else (some entry.results, mapSet (mapDelete c k) k entry)

/-- Embeds `setCachedResults(cacheKey, results)` (server.js lines 985-993): insert
or overwrite, then, if the size now exceeds `CACHE_MAX_ENTRIES`, delete the
first key in iteration order (the oldest-inserted / least-recently-refreshed
entry). -/
def cachePut (c : Cache) (k : Str) (v : List ResultItem) (now : Int) : Cache :=
  let c' := mapSet c k { results := v, timestamp := now }
  if CACHE_MAX_ENTRIES < c'.length then
    match c'.head? with
    | some e => mapDelete c' e.1
    | none => c'
  else c'

/-! ## Derived definitions used to state the claims -/

/-- The combined text a document is indexed under:
`` `${titleLower} ${contentLower}` `` (server.js line 820). -/
def docText (item : Doc) : Str :=
  item.titleLower ++ ' ' :: item.contentLower

/-- The bucket of a token, `[]` when absent. -/
def bucketOf (ti : TokenIndex) (t : Str) : List Nat :=
  (mapGet ti t).getD []

/-- Best (maximum over the group's alternatives) non-overlapping occurrence
count in the lowercased title. -/
def bestTitleCount (item : Doc) (group : List Str) : Nat :=
  (group.map (fun kw => countOccurrences item.titleLower kw)).foldl max 0

/-- Best (maximum over the group's alternatives) non-overlapping occurrence
count in the lowercased content. -/
def bestContentCount (item : Doc) (group : List Str) : Nat :=
  (group.map (fun kw => countOccurrences item.contentLower kw)).foldl max 0

/-- The claims' per-group match condition (spec §4.5): positive best title
count, or — unless title-only — positive best content count. -/
def groupSatisfied (item : Doc) (isTitleOnly : Bool) (group : List Str) : Prop :=
  if isTitleOnly then 0 < bestTitleCount item group
  else 0 < bestTitleCount item group ∨ 0 < bestContentCount item group

instance (item : Doc) (t : Bool) (g : List Str) : Decidable (groupSatisfied item t g) := by
  unfold groupSatisfied; split <;> infer_instance

/-- The scanned candidate space of the handler before the category filter
(server.js lines 1156-1163): the candidate set when non-null, else the base
restriction when supplied, else the whole store. -/
def searchSpace (docs : List Doc) (groupsLower : List (List Str))
    (base : Option (List Nat)) : List Nat :=
  match collectCandidateIndexes (buildTokenIndex docs) groupsLower base with
  | some s => s
  | none =>
    match base with
    | some b => b
    | none => List.range docs.length

/-! ## Instrumented cache

To state *least-recently-used* precisely, the cache is replayed under an
instrumented semantics that tags every entry with the tick (operation index)
at which it reached its current position: its insertion, or its latest
live-hit refresh (a `Map.prototype.set` on a present key keeps the key's
position, so a `put` overwrite does not move — nor re-tag — the entry).
The projection that forgets tags recovers the real cache, and the tags along
the cache are proved strictly increasing, so the entry evicted by `cachePut`
— the first one — is always the least-recently-refreshed entry. -/

inductive CacheOp where
  | put (k : Str) (v : List ResultItem) (now : Int)
  | get (k : Str) (now : Int)

def applyOp (c : Cache) : CacheOp → Cache
  | .put k v now => cachePut c k v now
  | .get k now => (cacheGet c k now).2

def runOpsAux (c : Cache) : List CacheOp → Cache
  | [] => c
  | op :: rest => runOpsAux (applyOp c op) rest

/-- The cache state after a sequence of operations on an initially empty
cache. -/
def runOps (ops : List CacheOp) : Cache := runOpsAux [] ops

abbrev ICache := JsMap (CacheEntry × Nat)

def icacheGet (c : ICache) (k : Str) (now : Int) (tick : Nat) : ICache :=
  match mapGet c k with
  | none => c
  | some pr =>
    if CACHE_TTL < now - pr.1.timestamp then mapDelete c k
    else mapSet (mapDelete c k) k (pr.1, tick)

def icachePut (c : ICache) (k : Str) (v : List ResultItem) (now : Int)
    (tick : Nat) : ICache :=
  let c' :=
    match mapGet c k with
    | some pr => mapSet c k ({ results := v, timestamp := now }, pr.2)
    | none => mapSet c k ({ results := v, timestamp := now }, tick)
  if CACHE_MAX_ENTRIES < c'.length then
    match c'.head? with
    | some e => mapDelete c' e.1
    | none => c'
  else c'

def iapplyOp (c : ICache) (tick : Nat) : CacheOp → ICache
  | .put k v now => icachePut c k v now tick
  | .get k now => icacheGet c k now tick

def irunAux (c : ICache) (tick : Nat) : List CacheOp → ICache
  | [] => c
  | op :: rest => irunAux (iapplyOp c tick op) (tick + 1) rest

/-- The instrumented cache state after a sequence of operations on an
initially empty cache. -/
def irun (ops : List CacheOp) : ICache := irunAux [] 0 ops

/-- Forget the instrumentation tags. -/
def cacheProj (c : ICache) : Cache := c.map (fun p => (p.1, p.2.1))

/-! ## Basic lemmas: deduplication, sets, maps -/

theorem mem_dedupFirstAux [DecidableEq α] (l : List α) :
    ∀ (seen : List α) (a : α), a ∈ dedupFirstAux seen l ↔ a ∈ l ∧ a ∉ seen := by
  induction l with
  | nil => intro seen a; simp [dedupFirstAux]
  | cons b rest ih =>
    intro seen a
    by_cases hb : b ∈ seen
    · rw [dedupFirstAux, if_pos hb, ih]
      constructor
      · rintro ⟨h1, h2⟩; exact ⟨List.mem_cons_of_mem _ h1, h2⟩
      · rintro ⟨h1, h2⟩
        rcases List.mem_cons.mp h1 with rfl | h1
        · exact absurd hb h2
        · exact ⟨h1, h2⟩
    · rw [dedupFirstAux, if_neg hb]
      constructor
      · intro h
        rcases List.mem_cons.mp h with rfl | h
        · exact ⟨List.mem_cons_self _ _, hb⟩
        · obtain ⟨h1, h2⟩ := (ih (b :: seen) a).mp h
          exact ⟨List.mem_cons_of_mem _ h1, fun hs => h2 (List.mem_cons_of_mem _ hs)⟩
      · rintro ⟨h1, h2⟩
        rcases List.mem_cons.mp h1 with rfl | h1
        · exact List.mem_cons_self _ _
        · by_cases hab : a = b
          · subst hab; exact List.mem_cons_self _ _
          · refine List.mem_cons_of_mem _ ((ih (b :: seen) a).mpr ⟨h1, ?_⟩)
            intro hs
            rcases List.mem_cons.mp hs with h' | h'
            · exact hab h'
            · exact h2 h'

theorem mem_dedupFirst [DecidableEq α] (l : List α) (a : α) :
    a ∈ dedupFirst l ↔ a ∈ l := by
  simp [dedupFirst, mem_dedupFirstAux]

theorem nodup_dedupFirstAux [DecidableEq α] (l : List α) :
    ∀ seen : List α, (dedupFirstAux seen l).Nodup := by
  induction l with
  | nil => intro seen; simp [dedupFirstAux]
  | cons b rest ih =>
    intro seen
    by_cases hb : b ∈ seen
    · rw [dedupFirstAux, if_pos hb]; exact ih seen
    · rw [dedupFirstAux, if_neg hb]
      refine List.Nodup.cons ?_ (ih (b :: seen))
      intro hmem
      exact ((mem_dedupFirstAux rest (b :: seen) b).mp hmem).2 (List.mem_cons_self b seen)

theorem nodup_dedupFirst [DecidableEq α] (l : List α) : (dedupFirst l).Nodup :=
  nodup_dedupFirstAux l []

theorem mem_setAdd (l : List Nat) (d x : Nat) :
    x ∈ setAdd l d ↔ x ∈ l ∨ x = d := by
  unfold setAdd
  split
  · next hd =>
    constructor
    · exact Or.inl
    · rintro (h | rfl)
      · exact h
      · exact hd
  · simp [List.mem_append]

theorem nodup_setAdd (l : List Nat) (d : Nat) (h : l.Nodup) : (setAdd l d).Nodup := by
  unfold setAdd
  split
  · exact h
  · next hd =>
    refine List.Nodup.append h (List.nodup_singleton d) ?_
    intro x hx hxs
    rw [List.mem_singleton] at hxs
    exact hd (hxs ▸ hx)

theorem mapGet_nil (k : Str) : mapGet ([] : JsMap α) k = none := rfl

theorem mapGet_cons (p : Str × α) (rest : JsMap α) (k : Str) :
    mapGet (p :: rest) k = if p.1 = k then some p.2 else mapGet rest k := by
  by_cases h : p.1 = k
  · simp [mapGet, List.find?, h]
  · simp [mapGet, List.find?, h]

theorem mapGet_mapSet_self (m : JsMap α) (k : Str) (v : α) :
    mapGet (mapSet m k v) k = some v := by
  induction m with
  | nil => simp [mapSet, mapGet_cons]
  | cons p rest ih =>
    by_cases hk : p.1 = k
    · obtain ⟨k', v'⟩ := p
      simp only at hk
      rw [mapSet, if_pos hk, mapGet_cons, if_pos rfl]
    · obtain ⟨k', v'⟩ := p
      simp only at hk
      rw [mapSet, if_neg hk, mapGet_cons, if_neg hk]
      exact ih

theorem mapGet_mapSet_ne (m : JsMap α) (k k' : Str) (v : α) (h : k' ≠ k) :
    mapGet (mapSet m k v) k' = mapGet m k' := by
  induction m with
  | nil =>
    rw [mapSet, mapGet_cons, if_neg (by simpa using fun hh => h hh.symm), mapGet_nil]
  | cons p rest ih =>
    obtain ⟨k0, v0⟩ := p
    by_cases hk : k0 = k
    · subst hk
      rw [mapSet, if_pos rfl, mapGet_cons, mapGet_cons]
      simp only
      rw [if_neg (fun hh => h hh.symm), if_neg (fun hh => h hh.symm)]
    · rw [mapSet, if_neg hk, mapGet_cons, mapGet_cons]
      simp only
      by_cases hk' : k0 = k'
      · rw [if_pos hk', if_pos hk']
      · rw [if_neg hk', if_neg hk']
        exact ih

theorem bucketOf_addTokenDoc_self (ti : TokenIndex) (t : Str) (d : Nat) :
    bucketOf (addTokenDoc ti t d) t = setAdd (bucketOf ti t) d := by
  unfold addTokenDoc bucketOf
  cases h : mapGet ti t <;> simp [h, mapGet_mapSet_self]

theorem bucketOf_addTokenDoc_ne (ti : TokenIndex) (t t' : Str) (d : Nat)
    (h : t' ≠ t) : bucketOf (addTokenDoc ti t d) t' = bucketOf ti t' := by
  unfold addTokenDoc bucketOf
  cases hg : mapGet ti t <;> rw [mapGet_mapSet_ne _ _ _ _ h]

theorem mem_bucketOf_addTokenDoc (ti : TokenIndex) (t t' : Str) (d x : Nat) :
    x ∈ bucketOf (addTokenDoc ti t d) t' ↔
      x ∈ bucketOf ti t' ∨ (t' = t ∧ x = d) := by
  by_cases h : t' = t
  · subst h; rw [bucketOf_addTokenDoc_self, mem_setAdd]; tauto
  · rw [bucketOf_addTokenDoc_ne _ _ _ _ h]; tauto

/-! ## Token-index invariants -/

theorem mem_bucketOf_foldl_add (d : Nat) (tl : List Str) :
    ∀ (ti : TokenIndex) (t : Str) (x : Nat),
      x ∈ bucketOf (tl.foldl (fun ti tk => addTokenDoc ti tk d) ti) t ↔
        x ∈ bucketOf ti t ∨ (t ∈ tl ∧ x = d) := by
  induction tl with
  | nil => intro ti t x; simp
  | cons tk tl ih =>
    intro ti t x
    rw [List.foldl_cons, ih, mem_bucketOf_addTokenDoc]
    simp only [List.mem_cons]
    constructor
    · rintro ((h | ⟨rfl, rfl⟩) | ⟨h1, rfl⟩)
      · exact Or.inl h
      · exact Or.inr ⟨Or.inl rfl, rfl⟩
      · exact Or.inr ⟨Or.inr h1, rfl⟩
    · rintro (h | ⟨rfl | h1, rfl⟩)
      · exact Or.inl (Or.inl h)
      · exact Or.inl (Or.inr ⟨rfl, rfl⟩)
      · exact Or.inr ⟨h1, rfl⟩

theorem mem_bucketOf_indexDocumentTokens (ti : TokenIndex) (dI : Nat)
    (item : Doc) (t : Str) (x : Nat) :
    x ∈ bucketOf (indexDocumentTokens ti dI item.titleLower item.contentLower) t ↔
      x ∈ bucketOf ti t ∨ (t ∈ extractTokens (docText item) ∧ x = dI) := by
  unfold indexDocumentTokens docText
  exact mem_bucketOf_foldl_add dI _ ti t x

theorem mem_bucketOf_buildTokenIndexAux (docs : List Doc) :
    ∀ (ti : TokenIndex) (i : Nat) (t : Str) (x : Nat),
      x ∈ bucketOf (buildTokenIndexAux ti i docs) t ↔
        x ∈ bucketOf ti t ∨ ∃ j item, docs.get? j = some item ∧ x = i + j ∧
          t ∈ extractTokens (docText item) := by
  induction docs with
  | nil => intro ti i t x; simp [buildTokenIndexAux]
  | cons item docs ih =>
    intro ti i t x
    rw [buildTokenIndexAux, ih, mem_bucketOf_indexDocumentTokens]
    constructor
    · rintro ((h | ⟨htok, rfl⟩) | ⟨j, item', hget, rfl, htok⟩)
      · exact Or.inl h
      · exact Or.inr ⟨0, item, by simp, by omega, htok⟩
      · exact Or.inr ⟨j + 1, item', by simpa using hget, by omega, htok⟩
    · rintro (h | ⟨j, item', hget, rfl, htok⟩)
      · exact Or.inl (Or.inl h)
      · cases j with
        | zero =>
          simp only [List.get?_cons_zero, Option.some.injEq] at hget
          subst hget
          exact Or.inl (Or.inr ⟨htok, by omega⟩)
        | succ j =>
          simp only [List.get?_cons_succ] at hget
          exact Or.inr ⟨j, item', hget, by omega, htok⟩

theorem mem_bucketOf_buildTokenIndex (docs : List Doc) (t : Str) (x : Nat) :
    x ∈ bucketOf (buildTokenIndex docs) t ↔
      ∃ item, docs.get? x = some item ∧ t ∈ extractTokens (docText item) := by
  rw [buildTokenIndex, mem_bucketOf_buildTokenIndexAux]
  simp only [bucketOf, mapGet_nil, Option.getD_none, List.not_mem_nil, false_or]
  constructor
  · rintro ⟨j, item, hget, rfl, htok⟩
    exact ⟨item, by simpa using hget, htok⟩
  · rintro ⟨item, hget, htok⟩
    exact ⟨x, item, hget, by omega, htok⟩

theorem mapGet_of_mem_bucketOf (ti : TokenIndex) (t : Str) (d : Nat)
    (h : d ∈ bucketOf ti t) : ∃ b, mapGet ti t = some b ∧ d ∈ b := by
  unfold bucketOf at h
  cases hb : mapGet ti t with
  | none => rw [hb] at h; simp at h
  | some b => rw [hb] at h; exact ⟨b, rfl, h⟩

def bucketsNodup (ti : TokenIndex) : Prop := ∀ t, (bucketOf ti t).Nodup

theorem bucketsNodup_addTokenDoc (ti : TokenIndex) (tk : Str) (d : Nat)
    (h : bucketsNodup ti) : bucketsNodup (addTokenDoc ti tk d) := by
  intro t
  by_cases ht : t = tk
  · subst ht; rw [bucketOf_addTokenDoc_self]; exact nodup_setAdd _ _ (h t)
  · rw [bucketOf_addTokenDoc_ne _ _ _ _ ht]; exact h t

theorem bucketsNodup_foldl_add (d : Nat) (tl : List Str) :
    ∀ ti : TokenIndex, bucketsNodup ti →
      bucketsNodup (tl.foldl (fun ti tk => addTokenDoc ti tk d) ti) := by
  induction tl with
  | nil => intro ti h; exact h
  | cons tk tl ih =>
    intro ti h
    rw [List.foldl_cons]
    exact ih _ (bucketsNodup_addTokenDoc _ _ _ h)

theorem bucketsNodup_buildTokenIndexAux (docs : List Doc) :
    ∀ (ti : TokenIndex) (i : Nat), bucketsNodup ti →
      bucketsNodup (buildTokenIndexAux ti i docs) := by
  induction docs with
  | nil => intro ti i h; exact h
  | cons item docs ih =>
    intro ti i h
    rw [buildTokenIndexAux]
    exact ih _ _ (bucketsNodup_foldl_add _ _ _ h)

theorem bucketsNodup_buildTokenIndex (docs : List Doc) :
    bucketsNodup (buildTokenIndex docs) := by
  refine bucketsNodup_buildTokenIndexAux docs [] 0 ?_
  intro t
  simp [bucketOf, mapGet_nil]

/-! ## Candidate-selector lemmas -/

theorem collectLoop_cons_skip (ti : TokenIndex) (base : Option (List Nat))
    (g : List Str) (rest : List (List Str)) (cand : Option (List Nat)) (used : Bool)
    (h : eligibleKeyword g = none ∨ ∃ kw, eligibleKeyword g = some kw ∧
      (mapGet ti kw = none ∨ mapGet ti kw = some [])) :
    collectLoop ti base (g :: rest) cand used = collectLoop ti base rest cand used := by
  rcases h with h | ⟨kw, helig, h | h⟩
  · rw [collectLoop, h]
  · rw [collectLoop]; simp only [helig, h]
  · rw [collectLoop]; simp [helig, h]

theorem collectLoop_cons_active (ti : TokenIndex) (base : Option (List Nat))
    (g : List Str) (rest : List (List Str)) (cand : Option (List Nat)) (used : Bool)
    (kw : Str) (bucket : List Nat)
    (helig : eligibleKeyword g = some kw) (hbb : mapGet ti kw = some bucket)
    (hne : bucket ≠ []) :
    collectLoop ti base (g :: rest) cand used =
      (let filteredBucket :=
        match base with
        | some b => bucket.filter (· ∈ b)
        | none => bucket
       let cand' :=
        match cand with
        | none => filteredBucket
        | some c => filteredBucket.filter (· ∈ c)
       if cand' = [] then (some cand', true)
       else collectLoop ti base rest (some cand') true) := by
  rw [collectLoop]
  simp only [helig, hbb, hne, if_false, ite_false]

theorem collectLoop_contains (ti : TokenIndex) (base : Option (List Nat)) (d : Nat)
    (hbase : ∀ b, base = some b → d ∈ b) :
    ∀ (groups : List (List Str)) (cand : Option (List Nat)) (used : Bool),
      (∀ g ∈ groups, ∀ kw, eligibleKeyword g = some kw →
        ∃ bb, mapGet ti kw = some bb ∧ d ∈ bb) →
      (used = true → ∃ c, cand = some c) →
      (∀ c, cand = some c → d ∈ c) →
      ((collectLoop ti base groups cand used).2 = true →
          ∃ c, (collectLoop ti base groups cand used).1 = some c ∧ d ∈ c) := by
  intro groups
  induction groups with
  | nil =>
    intro cand used hg hu hc hused
    rw [collectLoop] at hused ⊢
    obtain ⟨c, hcand⟩ := hu hused
    exact ⟨c, hcand, hc c hcand⟩
  | cons g rest ih =>
    intro cand used hg hu hc
    cases helig : eligibleKeyword g with
    | none =>
      rw [collectLoop_cons_skip ti base g rest cand used (Or.inl helig)]
      exact ih cand used (fun g' hg' => hg g' (List.mem_cons_of_mem _ hg')) hu hc
    | some kw =>
      obtain ⟨bb, hbb, hdbb⟩ := hg g (List.mem_cons_self g rest) kw helig
      have hbbne : bb ≠ [] := List.ne_nil_of_mem hdbb
      rw [collectLoop_cons_active ti base g rest cand used kw bb helig hbb hbbne]
      have hfil : d ∈ (match base with
          | some b => bb.filter (· ∈ b)
          | none => bb) := by
        cases base with
        | none => exact hdbb
        | some b =>
          have := hbase b rfl
          simp only [List.mem_filter]
          exact ⟨hdbb, by simpa using this⟩
      have hcand' : d ∈ (match cand with
          | none => (match base with
            | some b => bb.filter (· ∈ b)
            | none => bb)
          | some c => (match base with
            | some b => bb.filter (· ∈ b)
            | none => bb).filter (· ∈ c)) := by
        cases cand with
        | none => exact hfil
        | some c =>
          have := hc c rfl
          simp only [List.mem_filter]
          exact ⟨hfil, by simpa using this⟩
      simp only
      rw [if_neg (List.ne_nil_of_mem hcand')]
      refine ih _ true (fun g' hg' => hg g' (List.mem_cons_of_mem _ hg')) ?_ ?_
      · intro _; exact ⟨_, rfl⟩
      · intro c hcc
        injection hcc with hcc
        exact hcc ▸ hcand'

theorem collectLoop_nodup (ti : TokenIndex) (base : Option (List Nat))
    (hti : bucketsNodup ti) :
    ∀ (groups : List (List Str)) (cand : Option (List Nat)) (used : Bool),
      (∀ c, cand = some c → c.Nodup) →
      (∀ c, (collectLoop ti base groups cand used).1 = some c → c.Nodup) := by
  intro groups
  induction groups with
  | nil =>
    intro cand used hc
    rw [collectLoop]
    exact hc
  | cons g rest ih =>
    intro cand used hc
    cases helig : eligibleKeyword g with
    | none =>
      rw [collectLoop_cons_skip ti base g rest cand used (Or.inl helig)]
      exact ih cand used hc
    | some kw =>
      cases hbb : mapGet ti kw with
      | none =>
        rw [collectLoop_cons_skip ti base g rest cand used (Or.inr ⟨kw, helig, Or.inl hbb⟩)]
        exact ih cand used hc
      | some bb =>
        by_cases hbbne : bb = []
        · subst hbbne
          rw [collectLoop_cons_skip ti base g rest cand used (Or.inr ⟨kw, helig, Or.inr hbb⟩)]
          exact ih cand used hc
        · rw [collectLoop_cons_active ti base g rest cand used kw bb helig hbb hbbne]
          have hbbnd : bb.Nodup := by
            have := hti kw
            rw [bucketOf, hbb] at this
            exact this
          have hfilnd : (match base with
              | some b => bb.filter (· ∈ b)
              | none => bb).Nodup := by
            cases base with
            | none => exact hbbnd
            | some b => exact List.Nodup.filter _ hbbnd
          have hcand'nd : (match cand with
              | none => (match base with
                | some b => bb.filter (· ∈ b)
                | none => bb)
              | some c => (match base with
                | some b => bb.filter (· ∈ b)
                | none => bb).filter (· ∈ c)).Nodup := by
            cases cand with
            | none => exact hfilnd
            | some c => exact List.Nodup.filter _ hfilnd
          simp only
          split
          · intro c hcc
            injection hcc with hcc
            exact hcc ▸ hcand'nd
          · exact ih _ true (fun c hcc => by injection hcc with hcc; exact hcc ▸ hcand'nd)

theorem collectCandidateIndexes_contains (ti : TokenIndex)
    (groups : List (List Str)) (base : Option (List Nat)) (d : Nat)
    (hbase : ∀ b, base = some b → d ∈ b)
    (hg : ∀ g ∈ groups, ∀ kw, eligibleKeyword g = some kw →
      ∃ bb, mapGet ti kw = some bb ∧ d ∈ bb) :
    ∀ s, collectCandidateIndexes ti groups base = some s → d ∈ s := by
  intro s hs
  unfold collectCandidateIndexes at hs
  cases hloop : collectLoop ti base groups none false with
  | mk cand used =>
    rw [hloop] at hs
    cases used with
    | true =>
      obtain ⟨c, hcand, hdc⟩ :=
        collectLoop_contains ti base d hbase groups none false hg
          (by intro h; exact absurd h (by simp)) (by intro c h; exact absurd h (by simp))
          (by rw [hloop])
      rw [hloop] at hcand
      simp only at hcand hs
      rw [hcand] at hs
      simp only [Option.getD_some] at hs
      injection hs with hs
      exact hs ▸ hdc
    | false =>
      simp only at hs
      cases base with
      | none => exact absurd hs (by simp)
      | some b =>
        injection hs with hs
        exact hs ▸ hbase b rfl

theorem collectCandidateIndexes_nodup (ti : TokenIndex)
    (groups : List (List Str)) (base : Option (List Nat))
    (hti : bucketsNodup ti)
    (hbase : ∀ b, base = some b → b.Nodup) :
    ∀ s, collectCandidateIndexes ti groups base = some s → s.Nodup := by
  intro s hs
  unfold collectCandidateIndexes at hs
  cases hloop : collectLoop ti base groups none false with
  | mk cand used =>
    rw [hloop] at hs
    cases used with
    | true =>
      simp only at hs
      cases hcand : cand with
      | none =>
        rw [hcand] at hs
        simp only [Option.getD_none] at hs
        injection hs with hs
        exact hs ▸ List.nodup_nil
      | some c =>
        have hnd := collectLoop_nodup ti base hti groups none false
          (fun c h => absurd h (by simp)) c (by rw [hloop]; exact hcand)
        rw [hcand] at hs
        simp only [Option.getD_some] at hs
        injection hs with hs
        exact hs ▸ hnd
    | false =>
      simp only at hs
      cases base with
      | none => exact absurd hs (by simp)
      | some b =>
        injection hs with hs
        exact hs ▸ hbase b rfl

theorem collectLoop_append_skip (ti : TokenIndex) (base : Option (List Nat))
    (g : List Str) (kw : Str)
    (helig : eligibleKeyword g = some kw)
    (hb : mapGet ti kw = none ∨ mapGet ti kw = some []) :
    ∀ (gs1 gs2 : List (List Str)) (cand : Option (List Nat)) (used : Bool),
      collectLoop ti base (gs1 ++ g :: gs2) cand used =
        collectLoop ti base (gs1 ++ gs2) cand used := by
  intro gs1
  induction gs1 with
  | nil =>
    intro gs2 cand used
    rw [List.nil_append, List.nil_append,
      collectLoop_cons_skip ti base g gs2 cand used (Or.inr ⟨kw, helig, hb⟩)]
  | cons g' gs1 ih =>
    intro gs2 cand used
    rw [List.cons_append, List.cons_append]
    cases helig' : eligibleKeyword g' with
    | none =>
      rw [collectLoop_cons_skip ti base g' _ cand used (Or.inl helig'),
        collectLoop_cons_skip ti base g' _ cand used (Or.inl helig')]
      exact ih gs2 cand used
    | some kw' =>
      cases hbb : mapGet ti kw' with
      | none =>
        rw [collectLoop_cons_skip _ _ _ _ _ _ (Or.inr ⟨kw', helig', Or.inl hbb⟩),
          collectLoop_cons_skip _ _ _ _ _ _ (Or.inr ⟨kw', helig', Or.inl hbb⟩)]
        exact ih gs2 cand used
      | some bb =>
        by_cases hne : bb = []
        · subst hne
          rw [collectLoop_cons_skip _ _ _ _ _ _ (Or.inr ⟨kw', helig', Or.inr hbb⟩),
            collectLoop_cons_skip _ _ _ _ _ _ (Or.inr ⟨kw', helig', Or.inr hbb⟩)]
          exact ih gs2 cand used
        · rw [collectLoop_cons_active _ _ _ _ _ _ _ _ helig' hbb hne,
            collectLoop_cons_active _ _ _ _ _ _ _ _ helig' hbb hne]
          simp only
          split
          · rfl
          · exact ih gs2 _ true

/-! ## Ranking lemmas -/

theorem countOccurrences_nil_kw (s : Str) : countOccurrences s [] = 0 := by
  simp [countOccurrences]

theorem foldl_bestStep (item : Doc) (t : Bool) :
    ∀ (group : List Str) (a b : Nat),
      group.foldl (bestStep item t) (a, b) =
        ((group.map (fun kw => countOccurrences item.titleLower kw)).foldl max a,
         if t then b
         else (group.map (fun kw => countOccurrences item.contentLower kw)).foldl max b) := by
  intro group
  induction group with
  | nil => intro a b; cases t <;> simp
  | cons kw group ih =>
    intro a b
    rw [List.foldl_cons, List.map_cons, List.map_cons, List.foldl_cons]
    by_cases hkw : kw = []
    · subst hkw
      rw [bestStep, if_pos rfl, ih, countOccurrences_nil_kw, countOccurrences_nil_kw]
      cases t <;> simp
    · rw [bestStep, if_neg hkw, ih]
      cases t
      · rfl
      · rfl

theorem bestCounts_eq (item : Doc) (t : Bool) (group : List Str) :
    bestCounts item t group =
      (bestTitleCount item group,
       if t then 0 else bestContentCount item group) := by
  rw [bestCounts, foldl_bestStep, bestTitleCount, bestContentCount]

theorem scoreLoop_isSome_iff (item : Doc) (t : Bool) (G : Nat) :
    ∀ (groups : List (List Str)) (tr cr : Nat),
      (scoreLoop item t G groups tr cr).isSome = true ↔
        ∀ g ∈ groups, groupSatisfied item t g := by
  intro groups
  induction groups with
  | nil => intro tr cr; simp [scoreLoop]
  | cons g rest ih =>
    intro tr cr
    rw [scoreLoop]
    cases t <;>
      by_cases h1 : 0 < bestTitleCount item g <;>
        by_cases h2 : 0 < bestContentCount item g <;>
          simp [bestCounts_eq, groupSatisfied, h1, h2, ih, List.forall_mem_cons]

theorem scoreDoc_isSome_iff (item : Doc) (groups : List (List Str)) (t : Bool) :
    (scoreDoc item groups t).isSome = true ↔ ∀ g ∈ groups, groupSatisfied item t g := by
  rw [scoreDoc]
  exact scoreLoop_isSome_iff item t _ groups 1 1

theorem rankDoc_index (docs : List Doc) (groups : List (List Str)) (t : Bool)
    (i : Nat) (r : ResultItem) (h : rankDoc docs groups t i = some r) :
    r.index = i := by
  unfold rankDoc at h
  cases hget : docs.get? i with
  | none => rw [hget] at h; exact absurd h (by simp)
  | some item =>
    rw [hget] at h
    dsimp only at h
    cases hs : scoreDoc item groups t with
    | none => rw [hs] at h; exact absurd h (by simp)
    | some v =>
      rw [hs] at h
      simp only [Option.map_some'] at h
      injection h with h
      rw [← h]

theorem rankDoc_isSome_iff (docs : List Doc) (groups : List (List Str)) (t : Bool)
    (i : Nat) :
    (rankDoc docs groups t i).isSome = true ↔
      ∃ item, docs.get? i = some item ∧ ∀ g ∈ groups, groupSatisfied item t g := by
  unfold rankDoc
  cases hget : docs.get? i with
  | none => simp
  | some item =>
    dsimp only
    cases hs : scoreDoc item groups t with
    | none =>
      have hiff := scoreDoc_isSome_iff item groups t
      rw [hs] at hiff
      simp only [Option.map_none', Option.isSome_none, Bool.false_eq_true, false_iff] at hiff ⊢
      rintro ⟨item', hi, hsat⟩
      injection hi with hi
      subst hi
      exact hiff hsat
    | some v =>
      have hiff := scoreDoc_isSome_iff item groups t
      rw [hs] at hiff
      simp only [Option.isSome_some, true_iff] at hiff
      simp only [Option.map_some', Option.isSome_some, true_iff]
      exact ⟨item, rfl, hiff⟩

/-! ## Sorting and full-result-list lemmas -/

theorem sortResults_nil : sortResults [] = [] := rfl

theorem sortResults_perm (l : List ResultItem) : (sortResults l).Perm l :=
  List.perm_insertionSort resultLE l

theorem mem_sortResults (l : List ResultItem) (r : ResultItem) :
    r ∈ sortResults l ↔ r ∈ l :=
  (sortResults_perm l).mem_iff

theorem sortResults_sorted (l : List ResultItem) :
    (sortResults l).Pairwise resultLE :=
  List.sorted_insertionSort resultLE l

theorem sortResults_strict (l : List ResultItem)
    (h : l.Pairwise (fun a b => a.index ≠ b.index)) :
    (sortResults l).Pairwise
      (fun a b => b.rank < a.rank ∨ (a.rank = b.rank ∧ a.index < b.index)) := by
  have hne : (sortResults l).Pairwise (fun a b => a.index ≠ b.index) :=
    ((sortResults_perm l).pairwise_iff (fun h' => h'.symm)).mpr h
  refine ((sortResults_sorted l).and hne).imp ?_
  rintro a b ⟨hle, hab⟩
  rcases hle with hlt | ⟨heq, hle⟩
  · exact Or.inl hlt
  · exact Or.inr ⟨heq, lt_of_le_of_ne hle hab⟩

theorem pairwise_index_ne_filterMap (docs : List Doc) (groups : List (List Str))
    (t : Bool) :
    ∀ space : List Nat, space.Nodup →
      (space.filterMap (rankDoc docs groups t)).Pairwise
        (fun a b => a.index ≠ b.index) := by
  intro space
  induction space with
  | nil => intro _; simp
  | cons i space ih =>
    intro hnd
    rw [List.filterMap_cons]
    cases hr : rankDoc docs groups t i with
    | none => exact ih (List.Nodup.of_cons hnd)
    | some r =>
      refine List.Pairwise.cons ?_ (ih (List.Nodup.of_cons hnd))
      intro r' hr'
      obtain ⟨j, hj, hjr⟩ := List.mem_filterMap.mp hr'
      rw [rankDoc_index docs groups t i r hr, rankDoc_index docs groups t j r' hjr]
      intro hij
      exact (List.nodup_cons.mp hnd).1 (hij ▸ hj)

theorem mem_filterMap_rankDoc (docs : List Doc) (groups : List (List Str))
    (t : Bool) (space : List Nat) (d : Nat) :
    (∃ r ∈ space.filterMap (rankDoc docs groups t), r.index = d) ↔
      d ∈ space ∧ (rankDoc docs groups t d).isSome = true := by
  constructor
  · rintro ⟨r, hr, rfl⟩
    obtain ⟨j, hj, hjr⟩ := List.mem_filterMap.mp hr
    have hidx := rankDoc_index docs groups t j r hjr
    rw [hidx]
    exact ⟨hj, by rw [hjr]; rfl⟩
  · rintro ⟨hd, hsome⟩
    obtain ⟨r, hr⟩ := Option.isSome_iff_exists.mp hsome
    exact ⟨r, List.mem_filterMap.mpr ⟨d, hd, hr⟩, rankDoc_index docs groups t d r hr⟩

theorem searchSpace_nodup (docs : List Doc) (groups : List (List Str))
    (base : Option (List Nat)) (hbase : ∀ b, base = some b → b.Nodup) :
    (searchSpace docs groups base).Nodup := by
  unfold searchSpace
  cases hc : collectCandidateIndexes (buildTokenIndex docs) groups base with
  | some s =>
    exact collectCandidateIndexes_nodup _ _ _ (bucketsNodup_buildTokenIndex docs) hbase s hc
  | none =>
    cases base with
    | some b => exact hbase b rfl
    | none => exact List.nodup_range _

theorem fullResults_eq (docs : List Doc) (groups : List (List Str)) (t : Bool)
    (base : Option (List Nat)) (cat : Str) :
    fullResults docs groups t base cat =
      sortResults ((if cat ≠ [] then
          (searchSpace docs groups base).filter (fun idx =>
            match docs.get? idx with
            | some doc => doc.category = cat
            | none => false)
        else searchSpace docs groups base).filterMap (rankDoc docs groups t)) := by
  simp only [fullResults, searchSpace]
  cases hc : collectCandidateIndexes (buildTokenIndex docs) groups base with
  | none =>
    simp only [reduceCtorEq, if_false, ite_false]
    by_cases hcat : cat = []
    · simp [hcat]
    · simp only [hcat, ne_eq, not_false_eq_true, if_true, ite_true, true_and]
      split
      · next h => rw [h]; simp [sortResults_nil]
      · rfl
  | some s =>
    by_cases hs : s = []
    · subst hs
      simp [sortResults_nil, List.filter_nil]
    · simp only [Option.some.injEq, hs, if_false, ite_false]
      by_cases hcat : cat = []
      · simp [hcat]
      · simp only [hcat, ne_eq, not_false_eq_true, if_true, ite_true, true_and]
        split
        · next h => rw [h]; simp [sortResults_nil]
        · rfl

/-! ## Claim C1 -/

/-- Claim C1, counterexample: The claim's iff fails on the code: in the store
of two documents with contents "cat" and "concatenate", with query `cat`, document 1
has a positive best occurrence count for every group of the query ("cat"
occurs in "concatenate" as a substring), yet it does not appear in the full
unpaginated result list of `search` — index pruning keeps only the bucket of
the *token* "cat", which contains document 0 alone. -/
theorem c1_counterexample :
    (∀ g ∈ [["cat".toList]],
      groupSatisfied ⟨[], "concatenate".toList, []⟩ false g) ∧
    ¬ ∃ r ∈ fullResults [⟨[], "cat".toList, []⟩, ⟨[], "concatenate".toList, []⟩]
        [["cat".toList]] false none [], r.index = 1 := by
  decide

/-- Claim C1, amended: For every document D and parsed query Q (no category
filter, no base-index restriction), D appears in the full unpaginated result
list of `search(Q)` iff D lies in the scanned candidate space for Q (the
whole store when no eligible group prunes) **and** every group of Q has a
positive best (maximum over the group's alternatives) non-overlapping
case-insensitive substring occurrence count in D's title when title-only mode
is set, or in D's title or content otherwise. -/
theorem c1_search_membership (docs : List Doc) (groupsLower : List (List Str))
    (t : Bool) (d : Nat) :
    (∃ r ∈ fullResults docs groupsLower t none [], r.index = d) ↔
      (d ∈ searchSpace docs groupsLower none ∧
       ∃ item, docs.get? d = some item ∧
         ∀ g ∈ groupsLower, groupSatisfied item t g) := by
  rw [fullResults_eq]
  simp only [ne_eq, not_true_eq_false, if_false, ite_false]
  constructor
  · rintro ⟨r, hr, rfl⟩
    have h := (mem_filterMap_rankDoc docs groupsLower t
      (searchSpace docs groupsLower none) r.index).mp
      ⟨r, (mem_sortResults _ _).mp hr, rfl⟩
    exact ⟨h.1, (rankDoc_isSome_iff docs groupsLower t r.index).mp h.2⟩
  · rintro ⟨hsp, item, hget, hsat⟩
    have h2 : (rankDoc docs groupsLower t d).isSome = true :=
      (rankDoc_isSome_iff docs groupsLower t d).mpr ⟨item, hget, hsat⟩
    obtain ⟨r, hr, hidx⟩ := (mem_filterMap_rankDoc docs groupsLower t
      (searchSpace docs groupsLower none) d).mpr ⟨hsp, h2⟩
    exact ⟨r, (mem_sortResults _ _).mpr hr, hidx⟩

/-! ## Claim C2 -/

/-- Claim C2, counterexample: Pruning *does* remove a true match: document 1
("concatenate") matches query `cat` under the Ranker's substring-count
semantics, but the non-null candidate set is `[0]` — the bucket of the token
"cat" — which omits it. -/
theorem c2_counterexample :
    (scoreDoc ⟨[], "concatenate".toList, []⟩ [["cat".toList]] false).isSome = true ∧
    collectCandidateIndexes
      (buildTokenIndex [⟨[], "cat".toList, []⟩, ⟨[], "concatenate".toList, []⟩])
      [["cat".toList]] none = some [0] ∧
    (1 : Nat) ∉ ([0] : List Nat) := by
  decide

/-- Claim C2, amended: When `collectCandidateIndexes` returns a non-null
candidate set, that set contains every document ID (within the restriction,
if supplied) whose indexed token set contains, for each eligible group, that
group's keyword as a complete token; documents that match an eligible
keyword only as a substring inside a longer token may be pruned away. -/
theorem c2_candidate_superset (docs : List Doc) (groupsLower : List (List Str))
    (base : Option (List Nat)) (s : List Nat) (d : Nat) (item : Doc)
    (hres : collectCandidateIndexes (buildTokenIndex docs) groupsLower base = some s)
    (hget : docs.get? d = some item)
    (hbase : ∀ b, base = some b → d ∈ b)
    (htok : ∀ g ∈ groupsLower, ∀ kw, eligibleKeyword g = some kw →
      kw ∈ extractTokens (docText item)) :
    d ∈ s := by
  refine collectCandidateIndexes_contains _ _ _ d hbase ?_ s hres
  intro g hg kw helig
  exact mapGet_of_mem_bucketOf _ _ _
    ((mem_bucketOf_buildTokenIndex docs kw d).mpr ⟨item, hget, htok g hg kw helig⟩)

theorem c2_candidate_superset_witness :
    collectCandidateIndexes (buildTokenIndex [⟨[], "cat".toList, []⟩])
      [["cat".toList]] none = some [0] ∧
    (0 : Nat) ∈ ([0] : List Nat) :=
  ⟨by decide,
   c2_candidate_superset [⟨[], "cat".toList, []⟩] [["cat".toList]] none [0] 0
     ⟨[], "cat".toList, []⟩ (by decide) (by decide)
     (fun b h => nomatch h) (by decide)⟩

/-! ## Claim C3 -/

/-- Claim C3, counterexample: With a one-document store of content "xaby" and query `ab`: the group
`["ab"]` is eligible for pruning and the token "ab" has no bucket (the only
indexed token is "xaby"), yet candidate selection returns `null`
(unconstrained), not an empty set, and the search returns document 0 — no
short-circuit to an empty result list happens. -/
theorem c3_counterexample :
    eligibleKeyword ["ab".toList] = some "ab".toList ∧
    mapGet (buildTokenIndex [⟨[], "xaby".toList, []⟩]) "ab".toList = none ∧
    collectCandidateIndexes (buildTokenIndex [⟨[], "xaby".toList, []⟩])
      [["ab".toList]] none = none ∧
    (fullResults [⟨[], "xaby".toList, []⟩] [["ab".toList]] false none []).map
      ResultItem.index = [0] := by
  decide

/-- Claim C3, amended: A pruning-eligible group whose token has an absent or
empty bucket is *skipped*: it contributes no constraint at all, and candidate
selection behaves exactly as if the group were not present in the query (in
particular the search does not short-circuit to an empty result list on its
account). -/
theorem c3_empty_bucket_group_skipped (ti : TokenIndex) (base : Option (List Nat))
    (gs1 gs2 : List (List Str)) (g : List Str) (kw : Str)
    (helig : eligibleKeyword g = some kw)
    (hbucket : mapGet ti kw = none ∨ mapGet ti kw = some []) :
    collectCandidateIndexes ti (gs1 ++ g :: gs2) base =
      collectCandidateIndexes ti (gs1 ++ gs2) base := by
  unfold collectCandidateIndexes
  rw [collectLoop_append_skip ti base g kw helig hbucket gs1 gs2 none false]

theorem c3_empty_bucket_group_skipped_witness :
    collectCandidateIndexes [] [["ab".toList]] none =
      collectCandidateIndexes [] [] none :=
  c3_empty_bucket_group_skipped [] none [] [] ["ab".toList] "ab".toList
    (by decide) (Or.inl rfl)

/-! ## Claim C4 -/

theorem searchHandler_pageSize (docs : List Doc)
    (keyword titleOnly baseIndexes category : Str) (pageRaw pageSizeRaw : Option Int) :
    (searchHandler docs keyword titleOnly pageRaw pageSizeRaw baseIndexes
      category).pageSize = effectivePageSize pageSizeRaw := by
  unfold searchHandler
  split
  · rfl
  · split
    · rfl
    · dsimp only
      split
      · rfl
      · rfl

/-- Claim C4, counterexample: A requested `pageSize` of `0` does *not* clamp to
`1`: `parseInt("0") || 20` takes the default (`0` is falsy), so the effective
page size is `20`. -/
theorem c4_counterexample :
    (searchHandler [] [] [] none (some 0) [] []).pageSize = 20 ∧
    (searchHandler [] [] [] none (some 0) [] []).pageSize ≠ 1 := by
  decide

/-- Claim C4, amended: For every search request the effective page size is the
requested `pageSize` clamped into `[1, 100]`, **except** that a requested
`pageSize` of `0` (like an unparseable one) falls back to the default `20`:
a negative request yields `1`, a request above `100` yields `100`, a request
in `[1, 100]` is taken as is, and `0`/`NaN` yield `20`. -/
theorem c4_page_size_clamp (docs : List Doc)
    (keyword titleOnly baseIndexes category : Str) (pageRaw : Option Int) (n : Int) :
    (searchHandler docs keyword titleOnly pageRaw (some n) baseIndexes
      category).pageSize = effectivePageSize (some n) ∧
    (n < 0 → effectivePageSize (some n) = 1) ∧
    (1 ≤ n → n ≤ 100 → effectivePageSize (some n) = n) ∧
    (100 < n → effectivePageSize (some n) = 100) ∧
    effectivePageSize (some 0) = 20 ∧
    effectivePageSize none = 20 := by
  refine ⟨searchHandler_pageSize docs keyword titleOnly baseIndexes category
    pageRaw (some n), ?_, ?_, ?_, by decide, by decide⟩
  · intro h
    have hn0 : ¬ n = 0 := by omega
    simp only [effectivePageSize, jsOrDefault, MAX_PAGE_SIZE, if_neg hn0,
      Int.max_def, Int.min_def]
    split_ifs <;> omega
  · intro h1 h2
    have hn0 : ¬ n = 0 := by omega
    simp only [effectivePageSize, jsOrDefault, MAX_PAGE_SIZE, if_neg hn0,
      Int.max_def, Int.min_def]
    split_ifs <;> omega
  · intro h
    have hn0 : ¬ n = 0 := by omega
    simp only [effectivePageSize, jsOrDefault, MAX_PAGE_SIZE, if_neg hn0,
      Int.max_def, Int.min_def]
    split_ifs <;> omega

theorem c4_page_size_clamp_witness :
    ((-7 : Int) < 0 ∧ effectivePageSize (some (-7)) = 1) ∧
    ((1 : Int) ≤ 37 ∧ (37 : Int) ≤ 100 ∧ effectivePageSize (some 37) = 37) ∧
    ((100 : Int) < 250 ∧ effectivePageSize (some 250) = 100) :=
  ⟨⟨by decide, (c4_page_size_clamp [] [] [] [] [] none (-7)).2.1 (by decide)⟩,
   ⟨by decide, by decide,
    (c4_page_size_clamp [] [] [] [] [] none 37).2.2.1 (by decide) (by decide)⟩,
   ⟨by decide, (c4_page_size_clamp [] [] [] [] [] none 250).2.2.2.1 (by decide)⟩⟩

/-! ## Claim C6 -/

theorem intCeilDiv_eq_ceil (t : Nat) (s : Int) (hs : 1 ≤ s) :
    ((t : Int) + s - 1) / s = ⌈(t : ℚ) / (s : ℚ)⌉ := by
  have hs0 : (0 : Int) < s := by omega
  have hsq : (0 : ℚ) < (s : ℚ) := by exact_mod_cast hs0
  set q : Int := ((t : Int) + s - 1) / s with hq
  have h1 : q * s ≤ (t : Int) + s - 1 := Int.ediv_mul_le _ (by omega)
  have h2 : (t : Int) + s - 1 < (q + 1) * s := Int.lt_ediv_add_one_mul_self _ hs0
  have ht_le : (t : Int) ≤ q * s := by nlinarith
  have ht_gt : (q - 1) * s < (t : Int) := by nlinarith
  symm
  rw [Int.ceil_eq_iff]
  constructor
  · rw [show ((q : ℚ) - 1) = ((q - 1 : Int) : ℚ) by push_cast; ring]
    rw [lt_div_iff₀ hsq]
    exact_mod_cast ht_gt
  · rw [div_le_iff₀ hsq]
    exact_mod_cast ht_le

/-- Claim C6: For every sorted result list, page number ≥ 1 and clamped page
size ≥ 1, pagination reports `total` as the full list length and
`totalPages = ⌈total / pageSize⌉` — both computed from the full list, never
from the returned slice — and a requested page past the end returns an empty
results slice (with those totals untouched, as the same unconditional
equations). -/
theorem c6_pagination (rs : List ResultItem) (p s : Int) (hp : 1 ≤ p) (hs : 1 ≤ s) :
    (paginateResults rs p s).total = rs.length ∧
    (paginateResults rs p s).totalPages = ⌈(rs.length : ℚ) / (s : ℚ)⌉ ∧
    ((rs.length : Int) ≤ (p - 1) * s → (paginateResults rs p s).results = []) := by
  refine ⟨rfl, intCeilDiv_eq_ceil rs.length s hs, ?_⟩
  intro hpast
  show (rs.drop ((p - 1) * s).toNat).take s.toNat = []
  have h0 : (0 : Int) ≤ (p - 1) * s := mul_nonneg (by omega) (by omega)
  have hlen : rs.length ≤ ((p - 1) * s).toNat := by
    rw [Int.le_toNat h0]
    exact hpast
  rw [List.drop_eq_nil_of_le hlen, List.take_nil]

theorem c6_pagination_witness :
    ((1 : Int) ≤ 5 ∧ (1 : Int) ≤ 1) ∧
    (paginateResults [⟨0, 3⟩, ⟨1, 2⟩, ⟨2, 1⟩] 5 1).total = 3 ∧
    (paginateResults [⟨0, 3⟩, ⟨1, 2⟩, ⟨2, 1⟩] 5 1).results = [] := by
  have h := c6_pagination [⟨0, 3⟩, ⟨1, 2⟩, ⟨2, 1⟩] 5 1 (by decide) (by decide)
  exact ⟨⟨by decide, by decide⟩, h.1, h.2.2 (by decide)⟩

/-! ## Claim C8 -/

/-- Claim C8: The Query Parser maps `"hello world" foo|bar` (double quotes
present in the input) to exactly two groups in order: `[["hello world"],
["foo", "bar"]]`. -/
theorem c8_quoted_or_group_parse :
    parseSearchKeywords "\"hello world\" foo|bar".toList =
      [["hello world".toList], ["foo".toList, "bar".toList]] := by
  decide

/-! ## Claim C9 -/

theorem parseBaseIndexes_error_of_all_invalid (len : Nat) (raw : Str)
    (htrim : jsTrim raw ≠ [])
    (hall : ∀ entry ∈ raw.splitOn ',', ∀ k : Int, jsParseInt entry = some k →
      ¬(0 ≤ k ∧ k < (len : Int))) :
    parseBaseIndexes len raw = Except.error () := by
  unfold parseBaseIndexes
  rw [if_pos htrim]
  have hnil : (raw.splitOn ',').filterMap (fun entry =>
      match jsParseInt entry with
      | some k => if 0 ≤ k ∧ k < (len : Int) then some k.toNat else none
      | none => none) = [] := by
    rw [List.filterMap_eq_nil_iff]
    intro entry hentry
    cases hk : jsParseInt entry with
    | none => rfl
    | some k => simp [hall entry hentry k hk]
  dsimp only
  rw [hnil]
  rfl

/-- Claim C9: A search request whose keyword is empty or parses to zero groups,
or whose non-empty `baseIndexes` restriction contains no valid document ID,
yields a normal response with `results = []` and `total = 0` (never an
error — the handler is a total function). -/
theorem c9_empty_inputs (docs : List Doc)
    (keyword titleOnly baseIndexes category : Str) (pageRaw pageSizeRaw : Option Int)
    (h : keyword = [] ∨ parseSearchKeywords keyword = [] ∨
      (jsTrim baseIndexes ≠ [] ∧
       ∀ entry ∈ baseIndexes.splitOn ',', ∀ k : Int, jsParseInt entry = some k →
         ¬(0 ≤ k ∧ k < (docs.length : Int)))) :
    (searchHandler docs keyword titleOnly pageRaw pageSizeRaw baseIndexes
      category).results = [] ∧
    (searchHandler docs keyword titleOnly pageRaw pageSizeRaw baseIndexes
      category).total = 0 := by
  rcases h with hk | hg | ⟨htrim, hall⟩
  · rw [searchHandler, if_pos hk]
    exact ⟨rfl, rfl⟩
  · by_cases hk : keyword = []
    · rw [searchHandler, if_pos hk]
      exact ⟨rfl, rfl⟩
    · rw [searchHandler, if_neg hk]
      cases hpb : parseBaseIndexes docs.length baseIndexes with
      | error e => exact ⟨rfl, rfl⟩
      | ok base =>
        dsimp only
        rw [if_pos hg]
        exact ⟨rfl, rfl⟩
  · by_cases hk : keyword = []
    · rw [searchHandler, if_pos hk]
      exact ⟨rfl, rfl⟩
    · rw [searchHandler, if_neg hk,
        parseBaseIndexes_error_of_all_invalid docs.length baseIndexes htrim hall]
      exact ⟨rfl, rfl⟩

theorem c9_empty_inputs_witness :
    (searchHandler [] "hi".toList [] none none "5".toList []).results = [] ∧
    (searchHandler [] "hi".toList [] none none "5".toList []).total = 0 :=
  c9_empty_inputs [] "hi".toList [] "5".toList [] none none
    (Or.inr (Or.inr ⟨by decide, by
      intro entry hentry k hk
      have hsplit : ("5".toList.splitOn ',') = ["5".toList] := by decide
      rw [hsplit] at hentry
      have he : entry = "5".toList := by simpa using hentry
      subst he
      have h5 : jsParseInt "5".toList = some 5 := by decide
      rw [h5] at hk
      injection hk with hk
      subst hk
      decide⟩))

/-! ## Claim C10 -/

/-- Claim C10: When the `baseIndexes` parameter is non-blank and at least one
comma-separated entry parses to a valid document ID (an integer in
`[0, storeLen)`), the handler's parse succeeds with a restriction set that is
non-empty (so no empty-result short-circuit fires), duplicate-free, and
contains exactly the valid IDs — invalid entries (unparseable, negative, or
out of range) are silently discarded. -/
theorem c10_base_indexes_valid_subset (storeLen : Nat) (raw : Str)
    (htrim : jsTrim raw ≠ [])
    (hex : ∃ entry ∈ raw.splitOn ',', ∃ k : Int,
      jsParseInt entry = some k ∧ 0 ≤ k ∧ k < (storeLen : Int)) :
    ∃ ids, parseBaseIndexes storeLen raw = Except.ok (some ids) ∧ ids ≠ [] ∧
      ids.Nodup ∧
      ∀ n : Nat, (n ∈ ids ↔ ∃ entry ∈ raw.splitOn ',',
        jsParseInt entry = some (n : Int) ∧ n < storeLen) := by
  have hmem : ∀ n : Nat, (n ∈ (raw.splitOn ',').filterMap (fun entry =>
      match jsParseInt entry with
      | some k => if 0 ≤ k ∧ k < (storeLen : Int) then some k.toNat else none
      | none => none) ↔
      ∃ entry ∈ raw.splitOn ',', jsParseInt entry = some (n : Int) ∧ n < storeLen) := by
    intro n
    rw [List.mem_filterMap]
    constructor
    · rintro ⟨entry, hentry, hfe⟩
      cases hk : jsParseInt entry with
      | none => rw [hk] at hfe; exact absurd hfe (by simp)
      | some k =>
        rw [hk] at hfe
        dsimp only at hfe
        by_cases hv : 0 ≤ k ∧ k < (storeLen : Int)
        · rw [if_pos hv] at hfe
          injection hfe with hfe
          refine ⟨entry, hentry, ?_, ?_⟩
          · rw [hk, ← hfe, Int.toNat_of_nonneg hv.1]
          · have := hv.2
            omega
        · rw [if_neg hv] at hfe
          exact absurd hfe (by simp)
    · rintro ⟨entry, hentry, hk, hlt⟩
      refine ⟨entry, hentry, ?_⟩
      rw [hk]
      dsimp only
      rw [if_pos ⟨by omega, by exact_mod_cast hlt⟩]
      simp
  obtain ⟨entry, hentry, k, hk, hk0, hklt⟩ := hex
  have hkmem : k.toNat ∈ (raw.splitOn ',').filterMap (fun entry =>
      match jsParseInt entry with
      | some k => if 0 ≤ k ∧ k < (storeLen : Int) then some k.toNat else none
      | none => none) := by
    refine (hmem k.toNat).mpr ⟨entry, hentry, ?_, ?_⟩
    · rw [hk, Int.toNat_of_nonneg hk0]
    · omega
  have hne : dedupFirst ((raw.splitOn ',').filterMap (fun entry =>
      match jsParseInt entry with
      | some k => if 0 ≤ k ∧ k < (storeLen : Int) then some k.toNat else none
      | none => none)) ≠ [] :=
    List.ne_nil_of_mem ((mem_dedupFirst _ _).mpr hkmem)
  refine ⟨_, ?_, hne, nodup_dedupFirst _, ?_⟩
  · unfold parseBaseIndexes
    rw [if_pos htrim]
    dsimp only
    rw [if_neg hne]
  · intro n
    rw [mem_dedupFirst]
    exact hmem n

theorem c10_base_indexes_valid_subset_witness :
    ∃ ids, parseBaseIndexes 3 "abc,2,-1,2,99".toList = Except.ok (some ids) ∧
      ids ≠ [] ∧ ids.Nodup ∧
      ∀ n : Nat, (n ∈ ids ↔ ∃ entry ∈ "abc,2,-1,2,99".toList.splitOn ',',
        jsParseInt entry = some (n : Int) ∧ n < 3) :=
  c10_base_indexes_valid_subset 3 "abc,2,-1,2,99".toList (by decide)
    ⟨"2".toList, by decide, 2, by decide, by decide, by decide⟩

/-! ## Claim C5 -/

theorem parseBaseIndexes_base_nodup (len : Nat) (raw : Str) (base : Option (List Nat))
    (h : parseBaseIndexes len raw = Except.ok base) :
    ∀ b, base = some b → b.Nodup := by
  intro b hb
  subst hb
  unfold parseBaseIndexes at h
  by_cases htrim : jsTrim raw ≠ []
  · rw [if_pos htrim] at h
    dsimp only at h
    split at h
    · exact absurd h (by simp)
    · injection h with h
      injection h with h
      rw [← h]
      exact nodup_dedupFirst _
  · rw [if_neg htrim] at h
    injection h with h
    exact absurd h (by simp)

theorem fullResults_pairwise (docs : List Doc) (groups : List (List Str)) (t : Bool)
    (base : Option (List Nat)) (cat : Str)
    (hbase : ∀ b, base = some b → b.Nodup) :
    (fullResults docs groups t base cat).Pairwise
      (fun a b => b.rank < a.rank ∨ (a.rank = b.rank ∧ a.index < b.index)) := by
  rw [fullResults_eq]
  refine sortResults_strict _ (pairwise_index_ne_filterMap docs groups t _ ?_)
  by_cases hcat : cat ≠ []
  · rw [if_pos hcat]
    exact List.Nodup.filter _ (searchSpace_nodup docs groups base hbase)
  · rw [if_neg hcat]
    exact searchSpace_nodup docs groups base hbase

/-- Claim C5: In every search response (for arbitrary store and request
parameters), any two results are ordered by strictly descending rank, with
exact rank ties broken by strictly ascending document ID. -/
theorem c5_sort_order (docs : List Doc)
    (keyword titleOnly baseIndexes category : Str) (pageRaw pageSizeRaw : Option Int) :
    (searchHandler docs keyword titleOnly pageRaw pageSizeRaw baseIndexes
      category).results.Pairwise
      (fun a b => b.rank < a.rank ∨ (a.rank = b.rank ∧ a.index < b.index)) := by
  rw [searchHandler]
  split
  · exact List.Pairwise.nil
  · split
    · exact List.Pairwise.nil
    · next base hpb =>
      dsimp only
      split
      · exact List.Pairwise.nil
      · dsimp only [paginateResults]
        refine List.Pairwise.sublist ?_ (fullResults_pairwise docs
          (List.map (fun g => List.map toLowerStr g) (parseSearchKeywords keyword))
          (decide (titleOnly = ['t', 'r', 'u', 'e'])) base
          (if jsTrim category ≠ [] ∧ toLowerStr (jsTrim category) ≠ ['a', 'l', 'l']
            then jsTrim category else [])
          (parseBaseIndexes_base_nodup docs.length baseIndexes base hpb))
        exact (List.take_sublist _ _).trans (List.drop_sublist _ _)

/-! ## Cache lemmas: sizes, keys, projection -/

theorem mapSet_length_le (m : JsMap α) (k : Str) (v : α) :
    (mapSet m k v).length ≤ m.length + 1 := by
  induction m with
  | nil => simp [mapSet]
  | cons p rest ih =>
    obtain ⟨k0, v0⟩ := p
    rw [mapSet]
    split
    · simp
    · simp only [List.length_cons]
      omega

theorem mapDelete_length_of_get_some (m : JsMap α) (k : Str) (e : α)
    (h : mapGet m k = some e) : (mapDelete m k).length + 1 = m.length := by
  induction m with
  | nil => rw [mapGet_nil] at h; exact absurd h (by simp)
  | cons p rest ih =>
    rw [mapGet_cons] at h
    rw [mapDelete, List.eraseP_cons]
    by_cases hk : p.1 = k
    · rw [if_pos hk] at h
      simp [hk]
    · rw [if_neg hk] at h
      have := ih h
      simp only [hk, decide_eq_true_eq, decide_False, cond_false, List.length_cons]
      rw [← this]
      rfl

theorem mapDelete_length_le (m : JsMap α) (k : Str) :
    (mapDelete m k).length ≤ m.length :=
  (List.eraseP_sublist m).length_le

theorem cacheGet_length_le (c : Cache) (k : Str) (now : Int) :
    (cacheGet c k now).2.length ≤ c.length := by
  unfold cacheGet
  cases hg : mapGet c k with
  | none => exact le_refl _
  | some entry =>
    dsimp only
    split
    · exact mapDelete_length_le c k
    · dsimp only
      have h1 := mapSet_length_le (mapDelete c k) k entry
      have h2 := mapDelete_length_of_get_some c k entry hg
      omega

theorem cachePut_length_le (c : Cache) (k : Str) (v : List ResultItem) (now : Int)
    (h : c.length ≤ CACHE_MAX_ENTRIES) :
    (cachePut c k v now).length ≤ CACHE_MAX_ENTRIES := by
  unfold cachePut
  dsimp only
  split
  · next hov =>
    cases hc' : mapSet c k { results := v, timestamp := now } with
    | nil => rw [hc'] at hov; simp [CACHE_MAX_ENTRIES] at hov
    | cons hd tl =>
      rw [hc'] at hov
      dsimp only [List.head?]
      have hdel : mapDelete (hd :: tl) hd.1 = tl := by
        rw [mapDelete, List.eraseP_cons]
        simp
      rw [hdel]
      have hset := mapSet_length_le c k ({ results := v, timestamp := now } : CacheEntry)
      rw [hc'] at hset
      simp only [List.length_cons] at hset
      omega
  · next hov => omega

theorem runOpsAux_length (ops : List CacheOp) :
    ∀ c : Cache, c.length ≤ CACHE_MAX_ENTRIES →
      (runOpsAux c ops).length ≤ CACHE_MAX_ENTRIES := by
  induction ops with
  | nil => intro c h; exact h
  | cons op rest ih =>
    intro c h
    rw [runOpsAux]
    refine ih _ ?_
    cases op with
    | put k v now => exact cachePut_length_le c k v now h
    | get k now => exact le_trans (cacheGet_length_le c k now) h

theorem mapGet_proj (c : ICache) (k : Str) :
    mapGet (cacheProj c) k = (mapGet c k).map (fun pr => pr.1) := by
  induction c with
  | nil => rfl
  | cons p rest ih =>
    rw [cacheProj, List.map_cons, mapGet_cons, mapGet_cons]
    by_cases hk : p.1 = k
    · simp [hk]
    · simpa [hk] using ih

theorem mapDelete_cons (p : Str × α) (rest : JsMap α) (k : Str) :
    mapDelete (p :: rest) k = if p.1 = k then rest else p :: mapDelete rest k := by
  rw [mapDelete, List.eraseP_cons]
  by_cases hk : p.1 = k
  · simp [hk]
  · simp [hk, mapDelete]

theorem mapSet_proj (c : ICache) (k : Str) (e : CacheEntry) (g : Nat) :
    cacheProj (mapSet c k (e, g)) = mapSet (cacheProj c) k e := by
  induction c with
  | nil => rfl
  | cons p rest ih =>
    obtain ⟨k0, v0⟩ := p
    by_cases hk : k0 = k
    · simp [mapSet, cacheProj, hk]
    · simp only [mapSet, if_neg hk, cacheProj, List.map_cons]
      rw [cacheProj] at ih
      rw [ih]
      rfl

theorem mapDelete_proj (c : ICache) (k : Str) :
    cacheProj (mapDelete c k) = mapDelete (cacheProj c) k := by
  induction c with
  | nil => rfl
  | cons p rest ih =>
    have hproj : cacheProj (p :: rest) = (p.1, p.2.1) :: cacheProj rest := rfl
    by_cases hk : p.1 = k
    · rw [mapDelete_cons, if_pos hk, hproj, mapDelete_cons,
        if_pos (show (p.1, p.2.1).1 = k from hk)]
    · rw [mapDelete_cons, if_neg hk,
        show cacheProj (p :: mapDelete rest k) =
          (p.1, p.2.1) :: cacheProj (mapDelete rest k) from rfl,
        ih, hproj, mapDelete_cons, if_neg (show ¬(p.1, p.2.1).1 = k from hk)]

theorem cacheProj_length (c : ICache) : (cacheProj c).length = c.length :=
  List.length_map c _

theorem head?_proj (c : ICache) :
    (cacheProj c).head? = c.head?.map (fun p => (p.1, p.2.1)) := by
  cases c <;> rfl

theorem icachePut_proj (c : ICache) (k : Str) (v : List ResultItem) (now : Int)
    (tick : Nat) :
    cacheProj (icachePut c k v now tick) = cachePut (cacheProj c) k v now := by
  unfold icachePut cachePut
  have hbody : ∀ g : Nat,
      cacheProj (mapSet c k ({ results := v, timestamp := now }, g)) =
        mapSet (cacheProj c) k { results := v, timestamp := now } :=
    fun g => mapSet_proj c k _ g
  have hmain : ∀ ci : ICache,
      cacheProj ci = mapSet (cacheProj c) k { results := v, timestamp := now } →
      cacheProj (if CACHE_MAX_ENTRIES < ci.length then
          (match ci.head? with
           | some e => mapDelete ci e.1
           | none => ci)
        else ci) =
      (if CACHE_MAX_ENTRIES <
          (mapSet (cacheProj c) k { results := v, timestamp := now }).length then
          (match (mapSet (cacheProj c) k { results := v, timestamp := now }).head? with
           | some e => mapDelete (mapSet (cacheProj c) k
              { results := v, timestamp := now }) e.1
           | none => mapSet (cacheProj c) k { results := v, timestamp := now })
        else mapSet (cacheProj c) k { results := v, timestamp := now }) := by
    intro ci hci
    rw [← hci, cacheProj_length]
    by_cases hov : CACHE_MAX_ENTRIES < ci.length
    · rw [if_pos hov, if_pos hov]
      cases ci with
      | nil => rfl
      | cons hd tl =>
        rw [show cacheProj (hd :: tl) = (hd.1, hd.2.1) :: cacheProj tl from rfl]
        dsimp only [List.head?]
        rw [mapDelete_cons, if_pos (show (hd.1, hd.2.1).1 = hd.1 from rfl),
          mapDelete_cons, if_pos rfl]
    · rw [if_neg hov, if_neg hov]
  cases hg : mapGet c k with
  | none =>
    dsimp only
    exact hmain _ (hbody tick)
  | some pr =>
    dsimp only
    exact hmain _ (hbody pr.2)

theorem icacheGet_proj (c : ICache) (k : Str) (now : Int) (tick : Nat) :
    cacheProj (icacheGet c k now tick) = (cacheGet (cacheProj c) k now).2 := by
  unfold icacheGet cacheGet
  rw [mapGet_proj]
  cases hg : mapGet c k with
  | none => rfl
  | some pr =>
    dsimp only [Option.map_some']
    by_cases hexp : CACHE_TTL < now - pr.1.timestamp
    · rw [if_pos hexp, if_pos hexp]
      exact mapDelete_proj c k
    · rw [if_neg hexp, if_neg hexp]
      dsimp only
      rw [mapSet_proj, mapDelete_proj]

theorem iapplyOp_proj (c : ICache) (tick : Nat) (op : CacheOp) :
    cacheProj (iapplyOp c tick op) = applyOp (cacheProj c) op := by
  cases op with
  | put k v now => exact icachePut_proj c k v now tick
  | get k now => exact icacheGet_proj c k now tick

theorem irunAux_proj (ops : List CacheOp) :
    ∀ (c : ICache) (tick : Nat),
      cacheProj (irunAux c tick ops) = runOpsAux (cacheProj c) ops := by
  induction ops with
  | nil => intro c tick; rfl
  | cons op rest ih =>
    intro c tick
    rw [irunAux, runOpsAux, ih, iapplyOp_proj]

theorem irun_proj (ops : List CacheOp) : cacheProj (irun ops) = runOps ops :=
  irunAux_proj ops [] 0

/-! ## Cache recency invariants -/

def keysNodup (m : JsMap α) : Prop := (m.map Prod.fst).Nodup

/-- The recency tags of an instrumented cache, in cache order. -/
def ghosts (c : ICache) : List Nat := c.map (fun p => p.2.2)

/-- The combined invariant of a reachable instrumented cache just before the
operation with index `n` runs: unique keys, recency tags strictly increasing
along the cache, and all tags below `n`. -/
def cacheInv (c : ICache) (n : Nat) : Prop :=
  keysNodup c ∧ (ghosts c).Pairwise (fun a b => a < b) ∧ ∀ x ∈ ghosts c, x < n

theorem mem_keys_mapSet (m : JsMap α) (k : Str) (v : α) (x : Str) :
    x ∈ (mapSet m k v).map Prod.fst ↔ x ∈ m.map Prod.fst ∨ x = k := by
  induction m with
  | nil => simp [mapSet]
  | cons p rest ih =>
    obtain ⟨k0, v0⟩ := p
    by_cases hk : k0 = k
    · subst hk
      rw [show mapSet ((k0, v0) :: rest) k0 v = (k0, v) :: rest from by
        rw [mapSet, if_pos rfl]]
      simp only [List.map_cons, List.mem_cons]
      tauto
    · simp only [mapSet, if_neg hk, List.map_cons, List.mem_cons, ih]
      tauto

theorem keysNodup_mapSet (m : JsMap α) (k : Str) (v : α) (h : keysNodup m) :
    keysNodup (mapSet m k v) := by
  induction m with
  | nil => simp [keysNodup, mapSet]
  | cons p rest ih =>
    obtain ⟨k0, v0⟩ := p
    rw [keysNodup, List.map_cons, List.nodup_cons] at h
    by_cases hk : k0 = k
    · subst hk
      rw [keysNodup, mapSet, if_pos rfl, List.map_cons]
      exact List.Nodup.cons h.1 h.2
    · rw [keysNodup, mapSet, if_neg hk, List.map_cons]
      refine List.Nodup.cons ?_ (ih h.2)
      intro hmem
      rcases (mem_keys_mapSet rest k v k0).mp hmem with hmem | hmem
      · exact h.1 hmem
      · exact hk hmem

theorem keysNodup_mapDelete (m : JsMap α) (k : Str) (h : keysNodup m) :
    keysNodup (mapDelete m k) :=
  List.Nodup.sublist (List.Sublist.map Prod.fst (List.eraseP_sublist m)) h

theorem mapGet_eq_none_of_not_mem_keys (m : JsMap α) (k : Str)
    (h : k ∉ m.map Prod.fst) : mapGet m k = none := by
  induction m with
  | nil => rfl
  | cons p rest ih =>
    rw [List.map_cons, List.mem_cons] at h
    push_neg at h
    rw [mapGet_cons, if_neg (fun hh => h.1 hh.symm)]
    exact ih h.2

theorem mapGet_mapDelete_self (m : JsMap α) (k : Str) (h : keysNodup m) :
    mapGet (mapDelete m k) k = none := by
  induction m with
  | nil => rfl
  | cons p rest ih =>
    rw [keysNodup, List.map_cons, List.nodup_cons] at h
    by_cases hk : p.1 = k
    · rw [mapDelete_cons, if_pos hk]
      exact mapGet_eq_none_of_not_mem_keys rest k (hk ▸ h.1)
    · rw [mapDelete_cons, if_neg hk, mapGet_cons, if_neg hk]
      exact ih h.2

theorem mapSet_of_get_none (m : JsMap α) (k : Str) (v : α)
    (h : mapGet m k = none) : mapSet m k v = m ++ [(k, v)] := by
  induction m with
  | nil => rfl
  | cons p rest ih =>
    rw [mapGet_cons] at h
    by_cases hk : p.1 = k
    · rw [if_pos hk] at h
      exact absurd h (by simp)
    · rw [if_neg hk] at h
      obtain ⟨k0, v0⟩ := p
      rw [mapSet, if_neg hk, ih h, List.cons_append]

theorem ghosts_mapSet_overwrite (c : ICache) (k : Str) (e : CacheEntry)
    (pr : CacheEntry × Nat) (hg : mapGet c k = some pr) :
    ghosts (mapSet c k (e, pr.2)) = ghosts c := by
  induction c with
  | nil => rw [mapGet_nil] at hg; exact absurd hg (by simp)
  | cons p rest ih =>
    rw [mapGet_cons] at hg
    obtain ⟨k0, v0⟩ := p
    by_cases hk : k0 = k
    · rw [if_pos hk] at hg
      injection hg with hg
      rw [ghosts, mapSet, if_pos hk, List.map_cons, ghosts, List.map_cons]
      rw [← hg]
    · rw [if_neg hk] at hg
      rw [ghosts, mapSet, if_neg hk, List.map_cons, ghosts, List.map_cons]
      rw [ghosts] at ih
      rw [ih hg]
      rfl

theorem ghosts_mapDelete_sublist (c : ICache) (k : Str) :
    (ghosts (mapDelete c k)).Sublist (ghosts c) :=
  List.Sublist.map _ (List.eraseP_sublist c)

theorem ghosts_append_insert (c : ICache) (k : Str) (e : CacheEntry) (g : Nat)
    (hg : mapGet c k = none) :
    ghosts (mapSet c k (e, g)) = ghosts c ++ [g] := by
  rw [mapSet_of_get_none c k _ hg, ghosts, List.map_append, ghosts]
  rfl

theorem cacheInv_icacheGet (c : ICache) (k : Str) (now : Int) (tick : Nat)
    (h : cacheInv c tick) : cacheInv (icacheGet c k now tick) (tick + 1) := by
  obtain ⟨hkeys, hsorted, hbelow⟩ := h
  unfold icacheGet
  cases hg : mapGet c k with
  | none => exact ⟨hkeys, hsorted, fun x hx => Nat.lt_succ_of_lt (hbelow x hx)⟩
  | some pr =>
    dsimp only
    split
    · exact ⟨keysNodup_mapDelete c k hkeys,
        List.Pairwise.sublist (ghosts_mapDelete_sublist c k) hsorted,
        fun x hx => Nat.lt_succ_of_lt
          (hbelow x ((ghosts_mapDelete_sublist c k).subset hx))⟩
    · have hdelkeys := keysNodup_mapDelete c k hkeys
      have hnone : mapGet (mapDelete c k) k = none := mapGet_mapDelete_self c k hkeys
      have happ := ghosts_append_insert (mapDelete c k) k pr.1 tick hnone
      refine ⟨keysNodup_mapSet _ k _ hdelkeys, ?_, ?_⟩
      · rw [happ, List.pairwise_append]
        refine ⟨List.Pairwise.sublist (ghosts_mapDelete_sublist c k) hsorted,
          List.pairwise_singleton _ _, ?_⟩
        intro x hx y hy
        rw [List.mem_singleton] at hy
        subst hy
        exact hbelow x ((ghosts_mapDelete_sublist c k).subset hx)
      · intro x hx
        rw [happ, List.mem_append, List.mem_singleton] at hx
        rcases hx with hx | rfl
        · exact Nat.lt_succ_of_lt (hbelow x ((ghosts_mapDelete_sublist c k).subset hx))
        · exact Nat.lt_succ_self _

theorem cacheInv_icachePut (c : ICache) (k : Str) (v : List ResultItem)
    (now : Int) (tick : Nat) (h : cacheInv c tick) :
    cacheInv (icachePut c k v now tick) (tick + 1) := by
  obtain ⟨hkeys, hsorted, hbelow⟩ := h
  unfold icachePut
  have hc' : ∀ ci : ICache, keysNodup ci →
      (ghosts ci).Pairwise (fun a b => a < b) → (∀ x ∈ ghosts ci, x < tick + 1) →
      cacheInv (if CACHE_MAX_ENTRIES < ci.length then
          (match ci.head? with
           | some e => mapDelete ci e.1
           | none => ci)
        else ci) (tick + 1) := by
    intro ci hk1 hs1 hb1
    by_cases hov : CACHE_MAX_ENTRIES < ci.length
    · rw [if_pos hov]
      cases ci with
      | nil => exact ⟨hk1, hs1, hb1⟩
      | cons hd tl =>
        dsimp only [List.head?]
        rw [mapDelete_cons, if_pos rfl]
        rw [keysNodup, List.map_cons, List.nodup_cons] at hk1
        rw [ghosts, List.map_cons] at hs1
        exact ⟨hk1.2, (List.pairwise_cons.mp hs1).2,
          fun x hx => hb1 x (List.mem_cons_of_mem _ hx)⟩
    · rw [if_neg hov]
      exact ⟨hk1, hs1, hb1⟩
  cases hg : mapGet c k with
  | none =>
    dsimp only
    refine hc' _ (keysNodup_mapSet _ _ _ hkeys) ?_ ?_
    · rw [ghosts_append_insert c k _ tick hg, List.pairwise_append]
      refine ⟨hsorted, List.pairwise_singleton _ _, ?_⟩
      intro x hx y hy
      rw [List.mem_singleton] at hy
      subst hy
      exact hbelow x hx
    · intro x hx
      rw [ghosts_append_insert c k _ tick hg, List.mem_append,
        List.mem_singleton] at hx
      rcases hx with hx | rfl
      · exact Nat.lt_succ_of_lt (hbelow x hx)
      · exact Nat.lt_succ_self _
  | some pr =>
    dsimp only
    refine hc' _ (keysNodup_mapSet _ _ _ hkeys) ?_ ?_
    · rw [ghosts_mapSet_overwrite c k _ pr hg]
      exact hsorted
    · intro x hx
      rw [ghosts_mapSet_overwrite c k _ pr hg] at hx
      exact Nat.lt_succ_of_lt (hbelow x hx)

theorem cacheInv_iapplyOp (c : ICache) (tick : Nat) (op : CacheOp)
    (h : cacheInv c tick) : cacheInv (iapplyOp c tick op) (tick + 1) := by
  cases op with
  | put k v now => exact cacheInv_icachePut c k v now tick h
  | get k now => exact cacheInv_icacheGet c k now tick h

theorem cacheInv_irunAux (ops : List CacheOp) :
    ∀ (c : ICache) (tick : Nat), cacheInv c tick →
      cacheInv (irunAux c tick ops) (tick + ops.length) := by
  induction ops with
  | nil => intro c tick h; exact h
  | cons op rest ih =>
    intro c tick h
    rw [irunAux]
    have := ih (iapplyOp c tick op) (tick + 1) (cacheInv_iapplyOp c tick op h)
    rw [show tick + (op :: rest).length = tick + 1 + rest.length by
      simp [List.length_cons]; omega]
    exact this

theorem cacheInv_irun (ops : List CacheOp) : cacheInv (irun ops) ops.length := by
  have h := cacheInv_irunAux ops [] 0
    ⟨by simp [keysNodup], by simp [ghosts], by simp [ghosts]⟩
  simpa using h

/-! ## Claim C7 -/

/-- Claim C7: The Result Cache is a 120-entry LRU: after any sequence of
operations from an empty cache the cache holds at most `CACHE_MAX_ENTRIES`
(120) entries; the instrumented replay (which tags each entry with the tick
of its insertion or latest live-hit refresh — a put-overwrite keeps both the
position and the tag, exactly as `Map.prototype.set` keeps the key's
position) projects onto the real cache and is strictly sorted by tag, so the
first entry is always the least-recently-used one; `put` always
inserts/overwrites and, when the size then exceeds 120, evicts exactly that
first entry (`drop 1`); and a live `get` moves its entry to the
most-recently-used position (delete + reinsert at the end). -/
theorem c7_cache_lru (ops : List CacheOp) (c : Cache) (k k2 : Str)
    (v : List ResultItem) (e : CacheEntry) (now : Int) :
    (runOps ops).length ≤ CACHE_MAX_ENTRIES ∧
    cacheProj (irun ops) = runOps ops ∧
    (∀ hd tl, irun ops = hd :: tl → ∀ q ∈ tl, hd.2.2 < q.2.2) ∧
    (CACHE_MAX_ENTRIES < (mapSet c k { results := v, timestamp := now }).length →
      cachePut c k v now =
        (mapSet c k { results := v, timestamp := now }).drop 1) ∧
    (mapGet (runOps ops) k2 = some e → ¬ CACHE_TTL < now - e.timestamp →
      (cacheGet (runOps ops) k2 now).2 =
        mapDelete (runOps ops) k2 ++ [(k2, e)]) := by
  refine ⟨runOpsAux_length ops [] (by simp [CACHE_MAX_ENTRIES]), irun_proj ops,
    ?_, ?_, ?_⟩
  · intro hd tl hirun q hq
    have hinv := cacheInv_irun ops
    rw [hirun] at hinv
    have hs := hinv.2.1
    rw [ghosts, List.map_cons, List.pairwise_cons] at hs
    exact hs.1 _ (List.mem_map_of_mem _ hq)
  · intro hov
    unfold cachePut
    dsimp only
    rw [if_pos hov]
    cases hc' : mapSet c k { results := v, timestamp := now } with
    | nil => rw [hc'] at hov; simp [CACHE_MAX_ENTRIES] at hov
    | cons hd tl =>
      dsimp only [List.head?]
      rw [mapDelete_cons, if_pos rfl]
      rfl
  · intro hget hlive
    have hinv := cacheInv_irun ops
    have hkeys : keysNodup (runOps ops) := by
      rw [← irun_proj ops, keysNodup, cacheProj, List.map_map]
      exact hinv.1
    unfold cacheGet
    rw [hget]
    dsimp only
    rw [if_neg hlive]
    dsimp only
    rw [mapSet_of_get_none _ _ _ (mapGet_mapDelete_self _ k2 hkeys)]

theorem c7_cache_lru_witness :
    (runOps [CacheOp.put ['a'] [] 0]).length ≤ CACHE_MAX_ENTRIES ∧
    cacheProj (irun [CacheOp.put ['a'] [] 0]) = runOps [CacheOp.put ['a'] [] 0] ∧
    (∀ q ∈ ([] : ICache),
      ((['a'], ({ results := [], timestamp := 0 } : CacheEntry), 0) :
        Str × CacheEntry × Nat).2.2 < q.2.2) ∧
    cachePut (List.replicate 121 ((['a'] : Str),
        ({ results := [], timestamp := 0 } : CacheEntry))) ['a'] [] 0 =
      (mapSet (List.replicate 121 ((['a'] : Str),
        ({ results := [], timestamp := 0 } : CacheEntry))) ['a']
        { results := [], timestamp := 0 }).drop 1 ∧
    (cacheGet (runOps [CacheOp.put ['a'] [] 0]) ['a'] 0).2 =
      mapDelete (runOps [CacheOp.put ['a'] [] 0]) ['a'] ++
        [((['a'] : Str), { results := [], timestamp := 0 })] := by
  have h := c7_cache_lru [CacheOp.put ['a'] [] 0]
    (List.replicate 121 ((['a'] : Str), ({ results := [], timestamp := 0 } : CacheEntry)))
    ['a'] ['a'] [] { results := [], timestamp := 0 } 0
  exact ⟨h.1, h.2.1,
    h.2.2.1 (['a'], ({ results := [], timestamp := 0 } : CacheEntry), 0) [] (by decide),
    h.2.2.2.1 (by decide),
    h.2.2.2.2 (by decide) (by decide)⟩
